import Mathlib

/-!
# Verification of the octrafic-cli conversation-orchestration core

This development shallowly embeds the parts of the `octrafic-cli` Go
repository that its specification makes claims about:

* the inline `<think>` tag filter of the OpenAI-compatible streaming
  client (`thinkTagFilter.Process` / `Flush`);
* the per-index tool-call fragment accumulator of `Client.chatStream`;
* the bubbletea `Update` state machine of the CLI orchestrator
  (`TestUIModel.Update` and its handler functions);
* the bearer credential (`BearerAuth.Apply` / `Validate`) and the HTTP
  test executor (`Executor.ExecuteTest`);
* the message-list construction of `BaseAgent.Chat` / `ChatStream`.

Go strings are modelled as `List Char` (a Go string is a byte sequence;
all operations used by the embedded code — indexing, prefix/suffix
tests, slicing, trimming — act bytewise and are faithfully mirrored by
list operations).  Terminal styling (`lipgloss` render calls) carries no
behavioural content and is modelled as the identity on strings.
-/

namespace Octrafic

/-! ## Go string primitives on `List Char`

`goIndex` mirrors `strings.Index` (first occurrence of a pattern),
`goHasSuffix` mirrors `strings.HasSuffix`, and `goTrimLeftWS` mirrors
`strings.TrimLeft(s, " \t\n\r")`. -/

/-- `strings.Index pat l`: index of the first occurrence of `pat` in `l`,
or `none`. -/
def goIndex (pat : List Char) : List Char → Option Nat
  | [] => if pat.isPrefixOf [] then some 0 else none
  | c :: rest =>
      if pat.isPrefixOf (c :: rest) then some 0
      else (goIndex pat rest).map Nat.succ

/-- `strings.HasSuffix l pat`. -/
def goHasSuffix (l pat : List Char) : Bool := pat.isSuffixOf l

/-- Whitespace set of the filter's `strings.TrimLeft(buffer, " \t\n\r")`. -/
def isFilterWS (c : Char) : Bool := c = ' ' ∨ c = '\t' ∨ c = '\n' ∨ c = '\r'

/-- `strings.TrimLeft(l, " \t\n\r")`. -/
def goTrimLeftWS (l : List Char) : List Char := l.dropWhile isFilterWS

theorem goIndex_some_isPrefixOf {pat l : List Char} {i : Nat}
    (h : goIndex pat l = some i) : pat.isPrefixOf (l.drop i) := by
  induction l generalizing i with
  | nil =>
      unfold goIndex at h
      split at h
      · simp_all
      · simp at h
  | cons c rest ih =>
      unfold goIndex at h
      split at h
      · next hp => simp at h; subst h; simpa using hp
      · next hp =>
          cases hgi : goIndex pat rest with
          | none => simp [hgi] at h
          | some j =>
              simp [hgi] at h
              subst h
              simpa using ih hgi

theorem goIndex_some_min {pat l : List Char} {i : Nat}
    (h : goIndex pat l = some i) :
    ∀ j < i, ¬ pat.isPrefixOf (l.drop j) := by
  induction l generalizing i with
  | nil =>
      unfold goIndex at h
      split at h
      · simp at h; subst h; omega
      · simp at h
  | cons c rest ih =>
      unfold goIndex at h
      split at h
      · simp at h; subst h; omega
      · next hp =>
          cases hgi : goIndex pat rest with
          | none => simp [hgi] at h
          | some k =>
              simp [hgi] at h
              subst h
              intro j hj
              cases j with
              | zero => simpa using hp
              | succ j' =>
                  simp only [List.drop_succ_cons]
                  exact ih hgi j' (by omega)

theorem goIndex_none {pat l : List Char}
    (h : goIndex pat l = none) :
    ∀ j, ¬ pat.isPrefixOf (l.drop j) := by
  intro j
  induction l generalizing j with
  | nil =>
      unfold goIndex at h
      split at h
      · simp at h
      · next hp => cases j <;> simpa using hp
  | cons c rest ih =>
      unfold goIndex at h
      split at h
      · simp at h
      · next hp =>
          cases j with
          | zero => simpa using hp
          | succ j' =>
              cases hgi : goIndex pat rest with
              | none => simpa using ih hgi j'
              | some k => simp [hgi] at h

theorem goIndex_eq_some_of {pat l : List Char} {i : Nat}
    (hocc : pat.isPrefixOf (l.drop i))
    (hmin : ∀ j < i, ¬ pat.isPrefixOf (l.drop j)) :
    goIndex pat l = some i := by
  cases hgi : goIndex pat l with
  | none => exact absurd hocc (goIndex_none hgi i)
  | some k =>
      rcases lt_trichotomy k i with hlt | heq | hgt
      · exact absurd (goIndex_some_isPrefixOf hgi) (hmin k hlt)
      · rw [heq]
      · exact absurd hocc (goIndex_some_min hgi i hgt)

theorem isPrefixOf_length_le {pat l : List Char} (h : pat.isPrefixOf l) :
    pat.length ≤ l.length := by
  have := List.isPrefixOf_iff_prefix.mp h
  exact this.length_le

theorem goIndex_some_le {pat l : List Char} {i : Nat}
    (hne : pat ≠ []) (h : goIndex pat l = some i) :
    i + pat.length ≤ l.length := by
  have hp := goIndex_some_isPrefixOf h
  have hle := isPrefixOf_length_le hp
  rw [List.length_drop] at hle
  have : 0 < pat.length := List.length_pos.mpr hne
  omega

end Octrafic

namespace Octrafic

/-! ## C2: tool-call fragment accumulation (`chatStream`)

Both OpenAI-compatible clients (`src/unnamed/part_014` and
`src/internal/llm/openai/client.go`) accumulate streamed tool-call
fragments in a `map[int]*pendingToolCall`:

```go
for _, tc := range tcs {
    idx := int(tc.Get("index").Int())
    if pt, ok := pendingTools[idx]; ok {
        pt.args.WriteString(tc.Get("function.arguments").String())
    } else {
        pendingTools[idx] = &pendingToolCall{
            id:   tc.Get("id").String(),
            name: tc.Get("function.name").String(),
        }
        pendingTools[idx].args.WriteString(tc.Get("function.arguments").String())
    }
}
```

and after the stream ends each pending entry is resolved via
`json.Unmarshal(pt.args.String(), &args)` into a `FunctionCallData`.
The JSON parser is third-party (`encoding/json`); it is abstracted as an
arbitrary function `parse`. -/

/-- One `tool_calls` delta of one streaming frame. -/
structure TCDelta where
  index : Nat
  id : String
  name : String
  argsFrag : String
  deriving Repr, DecidableEq

/-- The `pendingToolCall` struct: id, name and the accumulated args
`strings.Builder`. -/
structure PendingToolCall where
  id : String
  name : String
  args : String
  deriving Repr, DecidableEq

/-- The `pendingTools` map, `map[int]*pendingToolCall`. -/
def PendingTools := Nat → Option PendingToolCall

/-- Processing one delta, mirroring the loop body above. -/
def stepTC (pt : PendingTools) (d : TCDelta) : PendingTools :=
  match pt d.index with
  | some p => fun j => if j = d.index then some { p with args := p.args ++ d.argsFrag } else pt j
  | none => fun j =>
      if j = d.index then some { id := d.id, name := d.name, args := d.argsFrag } else pt j

/-- Folding a whole stream of deltas (the per-frame loops concatenate:
frames are processed in arrival order, deltas within a frame in order). -/
def runTCs (ds : List TCDelta) : PendingTools :=
  ds.foldl stepTC (fun _ => none)

/-- Concatenation of a list of strings (successive `WriteString` calls
on a `strings.Builder`). -/
def strJoin : List String → String
  | [] => ""
  | s :: ss => s ++ strJoin ss

/-- All args fragments addressed to index `i`, in arrival order. -/
def fragsFor (i : Nat) (ds : List TCDelta) : String :=
  strJoin ((ds.filter (fun d => d.index = i)).map (·.argsFrag))

/-- The `FunctionCallData` emitted for a pending entry after the stream
ends: `args` is `json.Unmarshal` (abstracted as `parse`) applied to the
accumulated fragment string. -/
structure FunctionCallData (α : Type) where
  id : String
  name : String
  args : Option α
  deriving Repr

/-- Resolution of one pending entry at stream end. -/
def resolveTC {α : Type} (parse : String → Option α) (p : PendingToolCall) :
    FunctionCallData α :=
  { id := p.id, name := p.name, args := parse p.args }

theorem runTCs_from (pt : PendingTools) (ds : List TCDelta) (i : Nat) :
    ds.foldl stepTC pt i =
      match pt i with
      | some p => some { p with args := p.args ++ fragsFor i ds }
      | none =>
          match ds.find? (fun d => d.index = i) with
          | none => none
          | some d => some { id := d.id, name := d.name, args := fragsFor i ds } := by
  induction ds generalizing pt with
  | nil =>
      simp only [List.foldl_nil, fragsFor, List.filter_nil, List.map_nil, strJoin,
        List.find?_nil]
      cases pt i <;> simp
  | cons d rest ih =>
      simp only [List.foldl_cons]
      rw [ih (stepTC pt d)]
      by_cases hd : d.index = i
      · subst hd
        cases hpt : pt d.index with
        | some p =>
            simp only [stepTC, hpt, if_pos rfl]
            simp [fragsFor, List.filter_cons, strJoin, String.append_assoc]
        | none =>
            simp only [stepTC, hpt, if_pos rfl]
            simp [fragsFor, List.filter_cons, List.find?_cons, strJoin]
      · have hstep : stepTC pt d i = pt i := by
          unfold stepTC
          cases pt d.index <;> simp [Ne.symm hd]
        rw [hstep]
        have hfilter : fragsFor i (d :: rest) = fragsFor i rest := by
          simp [fragsFor, List.filter_cons, hd]
        have hfind : (d :: rest).find? (fun d => d.index = i) =
            rest.find? (fun d => d.index = i) := by
          simp [List.find?_cons, hd]
        rw [hfilter, hfind]

/-- **C2.** For every delta stream, the pending entry at index `i` takes
its id and name from the first delta addressed to `i`, and its argument
string is the concatenation of all fragments addressed to `i` in arrival
order; the emitted `FunctionCallData` parses that concatenation. -/
theorem runTCs_spec {α : Type} (parse : String → Option α)
    (ds : List TCDelta) (i : Nat) (d : TCDelta)
    (hfirst : ds.find? (fun d => d.index = i) = some d) :
    (runTCs ds i).map (resolveTC parse) =
      some { id := d.id, name := d.name, args := parse (fragsFor i ds) } := by
  unfold runTCs
  rw [runTCs_from (fun _ => none) ds i]
  simp [hfirst, resolveTC]

theorem runTCs_none (ds : List TCDelta) (i : Nat)
    (hnone : ds.find? (fun d => d.index = i) = none) :
    runTCs ds i = none := by
  unfold runTCs
  rw [runTCs_from (fun _ => none) ds i]
  simp [hnone]

end Octrafic

namespace Octrafic

/-! ## C10: `BaseAgent.Chat` / `ChatStream` message construction

`src/internal/agents/base_agent.go` builds the provider message list as

```go
messages := []common.Message{{Role: "system", Content: systemPrompt}}
for _, msg := range inputMessages { ... messages = append(messages, commonMsg) }
```

and `src/internal/llm/claude/client.go` guards `ChatStream` with

```go
if len(messages) == 0 { return ..., fmt.Errorf("no messages provided") }
```
-/

/-- `agent.ToolCall` / `common.FunctionCall` (arguments kept abstract:
the claims never inspect them through this conversion). -/
structure AFunctionCall (γ : Type) where
  id : String
  name : String
  arguments : γ

/-- `agent.FunctionResponseData` / `common.FunctionResponseData`. -/
structure AFunctionResponse (γ : Type) where
  id : String
  name : String
  response : γ

/-- `agent.ChatMessage` (the orchestrator-side message type). -/
structure AChatMessage (γ : Type) where
  role : String
  content : String
  reasoningContent : String
  functionCalls : List (AFunctionCall γ)
  functionResponse : Option (AFunctionResponse γ)

/-- `common.Message` (the provider-side message type). -/
structure CommonMessage (γ : Type) where
  role : String
  content : String
  reasoningContent : String
  functionCalls : List (AFunctionCall γ)
  functionResponse : Option (AFunctionResponse γ)

/-- The per-message conversion inside the `for` loop of `BaseAgent.Chat`
and `BaseAgent.ChatStream` (field-by-field copy). -/
def convertMsg {γ : Type} (m : AChatMessage γ) : CommonMessage γ :=
  { role := m.role
    content := m.content
    reasoningContent := m.reasoningContent
    functionCalls := m.functionCalls.map (fun fc => ⟨fc.id, fc.name, fc.arguments⟩)
    functionResponse := m.functionResponse.map (fun fr => ⟨fr.id, fr.name, fr.response⟩) }

/-- The message list both `BaseAgent.Chat` and `BaseAgent.ChatStream`
pass to `provider.Chat` / `provider.ChatStream`. -/
def buildMessages {γ : Type} (systemPrompt : String) (inputMessages : List (AChatMessage γ)) :
    List (CommonMessage γ) :=
  ⟨"system", systemPrompt, "", [], none⟩ :: inputMessages.map convertMsg

/-- The empty-history guard at the top of the Claude client's
`ChatStream` (`client.go:302-305`). -/
def claudeEmptyGuard {γ : Type} (messages : List (CommonMessage γ)) : Except String Unit :=
  if messages.length = 0 then .error "no messages provided" else .ok ()

/-- **C10.** The list handed to the provider is non-empty, starts with a
system-role message holding the supplied system prompt, and continues
with the caller's messages converted in their original order; hence the
Claude client's empty-history branch is never taken on it. -/
theorem buildMessages_spec {γ : Type} (systemPrompt : String)
    (inputMessages : List (AChatMessage γ)) :
    (buildMessages systemPrompt inputMessages).length = inputMessages.length + 1 ∧
    (buildMessages systemPrompt inputMessages).head? =
      some ⟨"system", systemPrompt, "", [], none⟩ ∧
    (buildMessages systemPrompt inputMessages).tail = inputMessages.map convertMsg ∧
    claudeEmptyGuard (buildMessages systemPrompt inputMessages) = .ok () := by
  refine ⟨by simp [buildMessages], rfl, rfl, ?_⟩
  simp [claudeEmptyGuard, buildMessages]

end Octrafic

namespace Octrafic

/-! ## C9: bearer credential validation and the test executor

`src/internal/core/auth/bearer.go`:

```go
func (b *BearerAuth) Apply(req *http.Request) error {
    if err := b.Validate(); err != nil { return err }
    req.Header.Set("Authorization", "Bearer "+b.Token)
    return nil
}
func (b *BearerAuth) Validate() error {
    if strings.TrimSpace(b.Token) == "" {
        return fmt.Errorf("bearer token cannot be empty")
    }
    return nil
}
```

`src/unnamed/part_016` (`Executor.ExecuteTest`): builds the URL,
marshals the body, creates the request, sets headers, then applies the
credential and only afterwards calls `e.client.Do(req)`; an `Apply`
error returns before the HTTP call.  The network itself is an oracle
parameter; the embedding records whether `client.Do` was reached. -/

/-- Go `unicode.IsSpace`: the Unicode `White_Space` property
(`U+0009`–`U+000D`, space, `U+0085` NEL, `U+00A0` NBSP, `U+1680`,
`U+2000`–`U+200A`, `U+2028`, `U+2029`, `U+202F`, `U+205F`, `U+3000`),
exactly Go's `unicode.White_Space` range table. -/
def isGoSpace (c : Char) : Bool :=
  (9 ≤ c.toNat ∧ c.toNat ≤ 13) ∨ c.toNat = 32 ∨ c.toNat = 0x85 ∨ c.toNat = 0xA0 ∨
  c.toNat = 0x1680 ∨ (0x2000 ≤ c.toNat ∧ c.toNat ≤ 0x200A) ∨
  c.toNat = 0x2028 ∨ c.toNat = 0x2029 ∨ c.toNat = 0x202F ∨
  c.toNat = 0x205F ∨ c.toNat = 0x3000

/-- `strings.TrimSpace` (rune-wise; `List Char` models the decoded
rune sequence). -/
def goTrimSpace (s : List Char) : List Char :=
  (s.dropWhile isGoSpace).reverse.dropWhile isGoSpace |>.reverse

/-- An outgoing HTTP request: method, url and headers
(`Header.Set` replaces any previous value for the key). -/
structure HttpRequest where
  method : List Char
  url : List Char
  headers : List (List Char × List Char)
  deriving Repr, DecidableEq

/-- `req.Header.Set(key, value)`. -/
def headerSet (req : HttpRequest) (key value : List Char) : HttpRequest :=
  { req with headers := (req.headers.filter (fun kv => kv.1 ≠ key)) ++ [(key, value)] }

/-- `BearerAuth.Validate`: `some errMsg` models a non-nil error. -/
def bearerValidate (token : List Char) : Option (List Char) :=
  if goTrimSpace token = [] then some "bearer token cannot be empty".toList else none

/-- `BearerAuth.Apply`. -/
def bearerApply (token : List Char) (req : HttpRequest) : Except (List Char) HttpRequest :=
  match bearerValidate token with
  | some e => .error e
  | none => .ok (headerSet req "Authorization".toList ("Bearer ".toList ++ token))

/-- The credential variants carried by the executor
(`auth.AuthProvider`); only the cases the claims touch are modelled. -/
inductive AuthProviderM where
  | noAuth : AuthProviderM
  | bearer (token : List Char) : AuthProviderM
  deriving Repr, DecidableEq

/-- `AuthProvider.Apply` dispatch (the `NoAuth` provider applies
nothing and never fails). -/
def authApply : AuthProviderM → HttpRequest → Except (List Char) HttpRequest
  | .noAuth, req => .ok req
  | .bearer tok, req => bearerApply tok req

/-- Outcome of `e.client.Do(req)` chosen by the environment. -/
inductive HttpOutcome where
  | failure (msg : List Char)
  | response (statusCode : Nat) (body : List Char)

/-- Result of `Executor.ExecuteTest`: either an error string or
status/body (durations are wall-clock and not modelled). -/
inductive ExecResult where
  | err (msg : List Char)
  | ok (statusCode : Nat) (body : List Char)
  deriving Repr, DecidableEq

/-- `Executor.ExecuteTest` with the network as oracle `doReq`.  The
second component records whether `e.client.Do` was reached (with the
request it was given). -/
def executorExecuteTest (authProvider : AuthProviderM) (baseURL endpoint : List Char)
    (hdrs : List (List Char × List Char)) (doReq : HttpRequest → HttpOutcome) :
    ExecResult × Option HttpRequest :=
  let fullURL :=
    if "http://".toList.isPrefixOf (baseURL ++ endpoint)
        ∨ "https://".toList.isPrefixOf (baseURL ++ endpoint) then baseURL ++ endpoint
    else "http://".toList ++ baseURL ++ endpoint
  let req0 : HttpRequest := { method := [], url := fullURL, headers := [] }
  let req1 := headerSet req0 "Content-Type".toList "application/json".toList
  let req2 := hdrs.foldl (fun r kv => headerSet r kv.1 kv.2) req1
  match authApply authProvider req2 with
  | .error e => (.err ("failed to apply auth: ".toList ++ e), none)
  | .ok req3 =>
      match doReq req3 with
      | .failure msg => (.err ("request failed: ".toList ++ msg), some req3)
      | .response code body => (.ok code body, some req3)

/-- Looking up a header value after `Set` semantics. -/
def headerGet (req : HttpRequest) (key : List Char) : Option (List Char) :=
  (req.headers.reverse.find? (fun kv => kv.1 = key)).map (·.2)

/-- **C9.** Whitespace-only bearer tokens fail validation with the exact
message `bearer token cannot be empty`, `Apply` propagates that error,
and `ExecuteTest` then errors without reaching `client.Do`; a token
that survives `TrimSpace` makes `Apply` succeed, setting
`Authorization: Bearer <token>`. -/
theorem bearer_validation_spec (token : List Char) :
    (goTrimSpace token = [] →
      bearerValidate token = some "bearer token cannot be empty".toList ∧
      (∀ req, bearerApply token req = .error "bearer token cannot be empty".toList) ∧
      (∀ baseURL endpoint hdrs doReq,
        (executorExecuteTest (.bearer token) baseURL endpoint hdrs doReq).2 = none ∧
        (executorExecuteTest (.bearer token) baseURL endpoint hdrs doReq).1 =
          .err ("failed to apply auth: bearer token cannot be empty".toList))) ∧
    (goTrimSpace token ≠ [] →
      bearerValidate token = none ∧
      (∀ req, bearerApply token req =
        .ok (headerSet req "Authorization".toList ("Bearer ".toList ++ token)) ∧
        ∀ req', bearerApply token req = .ok req' →
          headerGet req' "Authorization".toList = some ("Bearer ".toList ++ token))) := by
  constructor
  · intro hws
    have hval : bearerValidate token = some "bearer token cannot be empty".toList := by
      simp [bearerValidate, hws]
    refine ⟨hval, fun req => by simp [bearerApply, hval], ?_⟩
    intro baseURL endpoint hdrs doReq
    constructor
    · simp only [executorExecuteTest, authApply, bearerApply, hval]
    · simp only [executorExecuteTest, authApply, bearerApply, hval]
      congr 1
  · intro hws
    have hval : bearerValidate token = none := by
      simp [bearerValidate, hws]
    refine ⟨hval, fun req => ⟨by simp [bearerApply, hval], ?_⟩⟩
    intro req' happ
    simp only [bearerApply, hval, Except.ok.injEq] at happ
    subst happ
    simp [headerGet, headerSet, List.find?_append]

end Octrafic

namespace Octrafic
namespace CLI

/-! ## The CLI orchestrator (`internal/cli`)

Embedding of `TestUIModel.Update` (`update.go`), its handler functions
(`handlers.go`, `update_tests.go`) and `shouldAskForConfirmation`
(`utils.go`), restricted to the fields and message kinds the claims
touch.  Specific modelling choices, each display-only or a standard
oracle encoding:

* Terminal styling (`lipgloss`), the viewport, spinner/animation ticks,
  the textarea, command history, slash commands and the auth wizard are
  pure presentation and are not modelled; `addMessage` appends the raw
  line to `uiMessages`; purely decorative lines (labels, blank
  separators, widget bullets) are abbreviated.
* The `\x00TEXT:`/`\x00THINK:`/… prefix encoding on the streaming
  channel is a transport detail; chunks are modelled as a tagged type.
* `handleRunNextTest` performs its blocking `ExecuteTest` call inside
  the update step, so the `runNextTestMsg` message carries the
  environment-chosen HTTP outcome; the ghost field `httpCalls` records
  every `ExecuteTest` invocation with the credential the executor held
  at that moment.
* `m.testExecutor.authProvider` is the field mutated by
  `UpdateAuthProvider`; it is modelled as `executorAuth`.
-/

/-- JSON-like Go `any` values (`map[string]any`, `[]any`, strings,
numbers, booleans). -/
inductive JVal where
  | null : JVal
  | str (s : String) : JVal
  | int (n : Int) : JVal
  | bool (b : Bool) : JVal
  | arr (xs : List JVal) : JVal
  | obj (fields : List (String × JVal)) : JVal
  deriving Repr

/-- `m[k]` on a `map[string]any` (lookup only; the embedded code never
iterates such maps in a way the claims observe). -/
def objLookup (f : List (String × JVal)) (k : String) : Option JVal :=
  (f.find? (fun kv => kv.1 = k)).map (·.2)

/-- `v, _ := m[k].(string)` — empty string on missing key or wrong type. -/
def getStr (f : List (String × JVal)) (k : String) : String :=
  match objLookup f k with
  | some (.str s) => s
  | _ => ""

/-- `if v, ok := m[k].(bool); ok { x = v }` with default `d`. -/
def getBoolD (f : List (String × JVal)) (k : String) (d : Bool) : Bool :=
  match objLookup f k with
  | some (.bool b) => b
  | _ => d

/-- `agent.ToolCall`. -/
structure ToolCall where
  id : String
  name : String
  arguments : List (String × JVal)
  deriving Repr

/-- `agent.FunctionResponseData`. -/
structure FunctionResponseData where
  id : String
  name : String
  response : JVal
  deriving Repr

/-- `agent.ChatMessage`. -/
structure ChatMessage where
  role : String
  content : String := ""
  reasoningContent : String := ""
  functionCalls : List ToolCall := []
  functionResponse : Option FunctionResponseData := none
  deriving Repr

/-- `cli.AgentState`. -/
inductive AgentState where
  | idle | thinking | usingTool | processing | askingConfirmation
  | showingCommands | showingTestPlan | runningTests | wizard
  deriving Repr, DecidableEq

/-- `cli.ExecutionMode`. -/
inductive ExecutionMode where
  | ask | autoExecute
  deriving Repr, DecidableEq

/-- `cli.Test` (the test-plan selection entry), with its
`BackendTest`'s fields inlined. -/
structure TestItem where
  method : String
  endpoint : String
  status : String
  selected : Bool
  headers : JVal
  body : JVal
  requiresAuth : Bool
  deriving Repr

/-- Ghost record of one `Executor.ExecuteTest` invocation: what was
called and which credential the executor held during the call. -/
structure HttpCall where
  method : String
  endpoint : String
  auth : AuthProviderM
  deriving Repr, DecidableEq

/-- Environment-chosen outcome of one blocking `ExecuteTest` call. -/
inductive ExecOutcome where
  | fail (msg : String)
  | resp (statusCode : Int) (body : String) (durationMs : Int)
  deriving Repr

/-- One decoded streaming-channel chunk (`\x00…:`-prefixed strings in
the source). -/
inductive Chunk where
  | think (s : String)
  | text (s : String)
  | agent (s : String)
  | tools (tcs : List ToolCall)
  | tokens (inTok outTok : Int)
  | err (s : String)
  | done
  deriving Repr

/-- The `tea.Msg` values relevant to the claims. -/
inductive Msg where
  | keyEsc
  | keyEnter (input : String)
  | streamStart (chunks : List Chunk)
  | chunkMsg (c : Chunk) (rest : List Chunk)
  | streamDone
  | agentResponse (error : Option String) (message reasoning : String) (toolCalls : List ToolCall)
  | toolResult (toolName toolID : String) (result : JVal) (error : Option String)
  | processToolCalls
  | showTestSelection (tests : List (List (String × JVal))) (toolCall : ToolCall)
  | startTestGroup (tests : List (List (String × JVal))) (label : String) (toolName toolID : String)
  | runNextTest (outcome : ExecOutcome)
  | generateTestPlanResult (testCases : List (List (String × JVal)))
  | backendError (e : String)
  deriving Repr

/-- The `tea.Cmd` values returned by the embedded handlers
(animation/spinner ticks are display-only and dropped; `tea.Batch` of a
tick with one real command is that command). -/
inductive Cmd where
  | none
  | sendChat (discarded : String)
  | executeTool (tc : ToolCall)
  | runNextTest
  | tickProcessToolCalls
  | waitChunks (rest : List Chunk)
  | emitStartTestGroup (tests : List (List (String × JVal))) (label : String)
      (toolName toolID : String)
  | genTestPlanBackend (what focus : String)
  deriving Repr

/-- The orchestration-relevant state of `cli.TestUIModel`. -/
structure Model where
  agentState : AgentState
  executionMode : ExecutionMode
  conversationHistory : List ChatMessage
  currentToolCall : Option ToolCall
  pendingToolCall : Option ToolCall
  streamedToolCalls : List ToolCall
  streamedAgentMessage : String
  streamedTextChunk : String
  streamedReasoningChunk : String
  currentTestToolID : String
  currentTestToolName : String
  currentTestGroupLabel : String
  pendingTests : List (List (String × JVal))
  testGroupCompletedCount : Nat
  totalTestsInProgress : Nat
  testGroupResults : List JVal
  pendingTestGroupToolCall : Option ToolCall
  tests : List TestItem
  confirmationChoice : Int
  lastMessageRole : String
  authProvider : AuthProviderM
  executorAuth : AuthProviderM
  uiMessages : List String
  inputTokens : Int
  outputTokens : Int
  httpCalls : List HttpCall

/-- `m.addMessage(s)`. -/
def addMsg (m : Model) (s : String) : Model :=
  { m with uiMessages := m.uiMessages ++ [s] }

/-- `renderAgentLabel()` (display-only label). -/
def agentLabel : String := "Agent:"

/-- `TestUIModel.shouldAskForConfirmation` (`utils.go:86-96`). -/
def shouldAskForConfirmation (toolName : String) : Bool :=
  ¬ (toolName = "GenerateTestPlan" ∨ toolName = "ExecuteTestGroup"
      ∨ toolName = "GenerateReport")

end CLI
end Octrafic

namespace Octrafic
namespace CLI

/-- `TestUIModel.handleToolResult` (`handlers.go:325-512`): mutates the
model (display lines, `FunctionResponse` history appends) and returns
the next command, `none` standing for a nil `tea.Cmd`. -/
def handleToolResult (m : Model) (toolName toolID : String) (result : JVal) :
    Model × Option Cmd :=
  if toolName = "ExecuteTest" then
    match result with
    | .obj rm =>
        let m := addMsg (addMsg (addMsg m "") ("test result " ++ getStr rm "method"
          ++ " " ++ getStr rm "endpoint")) "test result status line"
        if toolID ≠ "" then
          let m := { m with conversationHistory := m.conversationHistory ++
            [{ role := "user"
               functionResponse := some ⟨toolID, "ExecuteTest", .obj rm⟩ }] }
          (m, some (.sendChat ""))
        else (m, none)
    | _ => (m, none)
  else if toolName = "ExecuteTestGroup" then
    match result with
    | .obj rm =>
        let m := addMsg (addMsg m "") "completed tests summary"
        if toolID ≠ "" then
          let m := { m with conversationHistory := m.conversationHistory ++
            [{ role := "user"
               functionResponse := some ⟨toolID, "ExecuteTestGroup", .obj rm⟩ }] }
          (m, some (.sendChat ""))
        else (m, none)
    | _ => (m, none)
  else if toolName = "get_endpoints_details" then
    if toolID ≠ "" then
      let resultMap : JVal := match result with | .obj r => .obj r | _ => .null
      let m := { m with conversationHistory := m.conversationHistory ++
        [{ role := "user"
           functionResponse := some ⟨toolID, "get_endpoints_details", resultMap⟩ }] }
      (m, some (.sendChat ""))
    else (m, none)
  else if toolName = "GenerateReport" then
    match result with
    | .obj rm =>
        let m := addMsg (addMsg (addMsg m "") "report generated")
          ("   " ++ getStr rm "file_path")
        if toolID ≠ "" then
          let m := { m with conversationHistory := m.conversationHistory ++
            [{ role := "user"
               functionResponse := some ⟨toolID, "GenerateReport", .obj rm⟩ }] }
          (m, some (.sendChat ""))
        else (m, none)
    | _ => (m, none)
  else if toolName = "GenerateTestPlan" then
    if toolID ≠ "" then
      let resultMap : JVal := match result with | .obj r => .obj r | _ => .null
      let m := { m with conversationHistory := m.conversationHistory ++
        [{ role := "user"
           functionResponse := some ⟨toolID, "GenerateTestPlan", resultMap⟩ }] }
      (m, some (.sendChat ""))
    else (m, none)
  else (m, none)

/-- `handleProcessToolCalls` (`update.go:881-987`): four sequential
name-scans over `m.streamedToolCalls`, each executing the first match
and discarding the rest. -/
def handleProcessToolCalls (m : Model) : Model × Cmd :=
  if m.streamedToolCalls.length > 0 then
    match m.streamedToolCalls.find? (fun tc => tc.name = "get_endpoints_details") with
    | some tc =>
        let m := { m with
          streamedToolCalls := [], currentTestToolID := tc.id
          currentTestToolName := "get_endpoints_details", agentState := .thinking }
        let m := addMsg m "widget: getting endpoint details"
        (m, .executeTool tc)
    | none =>
    match m.streamedToolCalls.find? (fun tc => tc.name = "GenerateTestPlan") with
    | some tc =>
        let m := { m with streamedToolCalls := [] }
        let what := getStr tc.arguments "what"
        if what = "" then
          (addMsg m "warning: GenerateTestPlan missing what parameter", .none)
        else
          let focus0 := getStr tc.arguments "focus"
          let focus := if focus0 = "" then "happy path" else focus0
          let m := { m with
            currentTestToolID := tc.id
            currentTestToolName := "GenerateTestPlan", agentState := .usingTool }
          (m, .genTestPlanBackend what focus)
    | none =>
    match m.streamedToolCalls.find? (fun tc => tc.name = "ExecuteTestGroup") with
    | some tc =>
        let m := { m with
          streamedToolCalls := [], currentTestToolID := tc.id
          currentTestToolName := "ExecuteTestGroup" }
        let m := addMsg m "widget: executing tests"
        ({ m with agentState := .processing }, .executeTool tc)
    | none =>
    match m.streamedToolCalls.find? (fun tc => tc.name = "GenerateReport") with
    | some tc =>
        let m := { m with
          streamedToolCalls := [], currentTestToolID := tc.id
          currentTestToolName := "GenerateReport" }
        let m := addMsg m "widget: generating PDF report"
        ({ m with agentState := .usingTool }, .executeTool tc)
    | none => ({ m with agentState := .idle }, .none)
  else ({ m with agentState := .idle }, .none)

/-- `handleStreamingMsg` (`update.go:327-440`). -/
def handleStreamingMsg (m : Model) (c : Chunk) (rest : List Chunk) : Model × Cmd :=
  match c with
  | .err e =>
      let m := addMsg (addMsg m ("Error - " ++ e)) ""
      ({ m with agentState := .idle }, .none)
  | .agent s =>
      let m := { m with streamedReasoningChunk := "" }
      let displayedContent := m.streamedTextChunk ≠ ""
      let m := if m.streamedTextChunk ≠ "" then
          { addMsg m m.streamedTextChunk with streamedTextChunk := "" }
        else m
      let m := if s ≠ "" ∧ ¬ displayedContent then
          addMsg { m with streamedAgentMessage := s } s
        else m
      (m, .waitChunks rest)
  | .tokens i o =>
      ({ m with inputTokens := m.inputTokens + i, outputTokens := m.outputTokens + o },
        .waitChunks rest)
  | .done =>
      let m := if m.streamedTextChunk ≠ "" then addMsg m m.streamedTextChunk else m
      let m := { m with streamedReasoningChunk := "", streamedTextChunk := "" }
      let chatMsg : ChatMessage :=
        { role := "assistant", content := m.streamedAgentMessage
          functionCalls := if m.streamedToolCalls.length > 0 then m.streamedToolCalls else [] }
      let m := { m with conversationHistory := m.conversationHistory ++ [chatMsg]
                        streamedAgentMessage := "" }
      if m.streamedToolCalls.length > 0 then (m, .tickProcessToolCalls)
      else if m.agentState = .showingTestPlan then (m, .none)
      else ({ m with agentState := .idle }, .none)
  | .tools tcs => ({ m with streamedToolCalls := tcs }, .waitChunks rest)
  | .think s =>
      ({ m with streamedReasoningChunk := m.streamedReasoningChunk ++ s }, .waitChunks rest)
  | .text s =>
      ({ m with streamedTextChunk := m.streamedTextChunk ++ s }, .waitChunks rest)

/-- `handleStartTestGroup` (`update_tests.go:86-108`). -/
def handleStartTestGroup (m : Model) (tests : List (List (String × JVal)))
    (label toolName toolID : String) : Model × Cmd :=
  let m := { m with
    pendingTests := tests, currentTestGroupLabel := label
    currentTestToolName := toolName }
  let m := if toolID ≠ "" then { m with currentTestToolID := toolID } else m
  let m := { m with
    testGroupCompletedCount := 0, totalTestsInProgress := tests.length
    testGroupResults := [], agentState := .runningTests }
  (addMsg (addMsg m "") label, .runNextTest)

/-- `handleRunNextTest` (`update_tests.go:111-252`).  The blocking
`m.testExecutor.ExecuteTest` call is resolved by the
environment-supplied `outcome`; the invocation and the credential the
executor held during it are recorded in `httpCalls`. -/
def handleRunNextTest (m : Model) (outcome : ExecOutcome) : Model × Cmd :=
  match m.pendingTests with
  | [] =>
      let m := addMsg m ""
      let hadToolID := m.currentTestToolID ≠ ""
      let completedCount := m.testGroupCompletedCount
      let m := if hadToolID then
          { m with conversationHistory := m.conversationHistory ++
            [{ role := "user"
               functionResponse := some ⟨m.currentTestToolID, m.currentTestToolName,
                 .obj [("count", .int completedCount), ("results", .arr m.testGroupResults)]⟩ }] }
        else m
      let m := { m with
        pendingTests := [], currentTestGroupLabel := ""
        testGroupCompletedCount := 0, totalTestsInProgress := 0, testGroupResults := []
        currentTestToolName := "", currentTestToolID := "", agentState := .processing }
      if hadToolID then (m, .sendChat "")
      else (m, .sendChat ("Tests completed. " ++ toString completedCount ++
        " tests executed. Would you like me to analyze the results or run more tests?"))
  | testMap :: restTests =>
      let m := { m with pendingTests := restTests }
      let method := getStr testMap "method"
      let endpoint := getStr testMap "endpoint"
      let requiresAuth := getBoolD testMap "requires_auth" false
      -- originalAuth := m.authProvider; swap in NoAuth when the test is
      -- auth-exempt, run the single blocking call, then restore.
      let originalAuth := m.authProvider
      let authDuringCall := if ¬ requiresAuth then AuthProviderM.noAuth else m.executorAuth
      let m := { m with
        executorAuth := authDuringCall
        httpCalls := m.httpCalls ++
          [({ method := method, endpoint := endpoint, auth := authDuringCall } : HttpCall)] }
      let m := if ¬ requiresAuth then { m with executorAuth := originalAuth } else m
      let m :=
        match outcome with
        | .fail errMsg =>
            let m := addMsg (addMsg m ("  x " ++ method ++ " " ++ endpoint))
              ("    Error: " ++ errMsg)
            { m with testGroupResults := m.testGroupResults ++
              [JVal.obj [("method", .str method), ("endpoint", .str endpoint),
                ("error", .str errMsg), ("requires_auth", .bool requiresAuth)]] }
        | .resp statusCode body durationMs =>
            let m := addMsg (addMsg m ("  test line " ++ method ++ " " ++ endpoint))
              "    status and duration line"
            { m with testGroupResults := m.testGroupResults ++
              [JVal.obj [("method", .str method), ("endpoint", .str endpoint),
                ("status_code", .int statusCode), ("response_body", .str body),
                ("duration_ms", .int durationMs), ("requires_auth", .bool requiresAuth)]] }
      ({ m with testGroupCompletedCount := m.testGroupCompletedCount + 1 }, .runNextTest)

/-- `handleGenerateTestPlanResult` (`update_tests.go:14-83`); the
backend-test-to-map conversion loop has already produced `testCases`. -/
def handleGenerateTestPlanResult (m : Model) (testCases : List (List (String × JVal))) :
    Model × Cmd :=
  let m := if testCases.length > 0 then
      addMsg (addMsg m ("Generated " ++ toString testCases.length ++ " test cases"))
        "    testing endpoints line"
    else addMsg m "warning: no tests generated"
  if m.currentTestToolID ≠ "" then
    let m := { m with agentState := .processing }
    let funcResp : FunctionResponseData :=
      ⟨m.currentTestToolID, "GenerateTestPlan",
        .obj [("status", .str "tests_generated"),
          ("test_count", .int testCases.length),
          ("test_cases", .arr (testCases.map .obj))]⟩
    let m := { m with
      conversationHistory := m.conversationHistory ++
        [{ role := "user", functionResponse := some funcResp }]
      currentTestToolID := "" }
    (m, .sendChat "")
  else (m, .none)

/-- `handleShowTestSelection` (`update.go:990-1031`). -/
def handleShowTestSelection (m : Model) (tests : List (List (String × JVal)))
    (toolCall : ToolCall) : Model × Cmd :=
  let items := tests.map (fun tm =>
    { method := getStr tm "method", endpoint := getStr tm "endpoint"
      status := "pending", selected := true
      headers := (objLookup tm "headers").getD .null
      body := (objLookup tm "body").getD .null
      requiresAuth := getBoolD tm "requires_auth" false : TestItem })
  ({ m with
    tests := items, pendingTestGroupToolCall := some toolCall
    agentState := .showingTestPlan }, .none)

/-- `handleTestPlanState` Enter branch (`update.go:639-721`): collect
the selected pending tests and start the group. -/
def handleTestPlanEnter (m : Model) : Model × Cmd :=
  let m := if m.lastMessageRole ≠ "assistant" then addMsg m agentLabel else m
  let selectedTests := m.tests.filter (fun t => t.selected ∧ t.status = "pending")
  if selectedTests.length = 0 then
    let m := addMsg (addMsg m "No tests selected for execution.") ""
    ({ m with
      lastMessageRole := "assistant", agentState := .idle
      pendingTestGroupToolCall := none }, .none)
  else
    let m := { m with lastMessageRole := "assistant" }
    let tests := selectedTests.map (fun t =>
      [("method", JVal.str t.method), ("endpoint", JVal.str t.endpoint),
        ("headers", t.headers), ("body", t.body),
        ("requires_auth", JVal.bool t.requiresAuth)])
    let label :=
      if tests.length > 1 then "Testing " ++ toString tests.length ++ " endpoints"
      else match selectedTests.head? with
        | some t => "Testing " ++ t.method ++ " " ++ t.endpoint
        | none => "Running tests"
    let toolID := match m.pendingTestGroupToolCall with
      | some tc => tc.id
      | none => ""
    let toolName := match m.pendingTestGroupToolCall with
      | some tc => tc.name
      | none => "ExecuteTestGroup"
    let m := { m with pendingTestGroupToolCall := none, agentState := .usingTool }
    (m, .emitStartTestGroup tests label toolName toolID)

/-- The `for i, test := range m.tests` loop of the skip branch of
`handleConfirmationState`: mark the first pending test skipped and
return it together with the updated list (`none` when no test is
pending). -/
def skipFirstPending : List TestItem → Option (TestItem × List TestItem)
  | [] => none
  | t :: ts =>
      if t.status = "pending" then some (t, { t with status := "skipped" } :: ts)
      else (skipFirstPending ts).map (fun p => (p.1, t :: p.2))

/-- `handleConfirmationState` Enter branch (`update.go:727-806`). -/
def handleConfirmationEnter (m : Model) : Model × Cmd :=
  if m.confirmationChoice = 0 then
    match m.pendingToolCall with
    | some tc =>
        ({ m with
          currentToolCall := some tc, pendingToolCall := none
          agentState := .usingTool }, .executeTool tc)
    | none => (m, .none)
  else if m.confirmationChoice = 1 then
    let m := { m with pendingToolCall := none, agentState := .idle }
    let m := if m.lastMessageRole ≠ "assistant" then addMsg m agentLabel else m
    let m := addMsg (addMsg m "Tool execution cancelled") ""
    ({ m with lastMessageRole := "assistant" }, .none)
  else
    let isExecuteTest := match m.pendingToolCall with
      | some tc => "ExecuteTest".isPrefixOf tc.name
      | none => false
    let m := { m with pendingToolCall := none }
    if isExecuteTest then
      let m := match skipFirstPending m.tests with
        | some (t, tests') =>
            let m := { m with tests := tests' }
            let m := if m.lastMessageRole ≠ "assistant" then addMsg m agentLabel else m
            let m := addMsg (addMsg m ("Skipped: " ++ t.method ++ " " ++ t.endpoint)) ""
            { m with lastMessageRole := "assistant" }
        | none => m
      let hasPendingTests := m.tests.any (fun t => t.status = "pending")
      if hasPendingTests then
        ({ m with
          pendingToolCall := some ⟨"", "ExecuteTest", []⟩
          confirmationChoice := 0, agentState := .askingConfirmation }, .none)
      else ({ m with agentState := .idle }, .none)
    else
      let m := if m.lastMessageRole ≠ "assistant" then addMsg m agentLabel else m
      let m := addMsg (addMsg m "Tool execution skipped") ""
      ({ m with lastMessageRole := "assistant", agentState := .idle }, .none)

/-- `handleGlobalKeyboard` Esc branch (`update.go:442-480`): cancel
whatever is in flight and drop back to `Idle`. -/
def handleEsc (m : Model) : Model × Cmd :=
  if m.agentState ≠ .idle then
    let m := { m with agentState := .idle, currentToolCall := none, pendingToolCall := none }
    let m := if m.lastMessageRole ≠ "assistant" then addMsg m agentLabel else m
    let m := addMsg (addMsg m "Operation cancelled") ""
    ({ m with lastMessageRole := "assistant" }, .none)
  else (m, .none)

/-- Enter in `StateIdle` with a plain non-empty input (`update.go`,
`tea.KeyEnter` under `StateIdle`; slash/auth commands and the
backslash-continuation path are presentation features outside this
model). -/
def handleIdleEnter (m : Model) (input : String) : Model × Cmd :=
  if input ≠ "" then
    let m := addMsg (addMsg (addMsg m "") ("> " ++ input)) ""
    let m := { m with
      lastMessageRole := "user"
      conversationHistory := m.conversationHistory ++ [{ role := "user", content := input }]
      agentState := .processing }
    (m, .sendChat input)
  else (m, .none)

/-- `TestUIModel.Update` (`update.go:27-325`), restricted to the
modelled messages; keyboard input is routed exactly as the source does:
`handleGlobalKeyboard` first, then the state-specific handlers. -/
def updateM (m : Model) (msg : Msg) : Model × Cmd :=
  match msg with
  | .keyEsc => handleEsc m
  | .keyEnter input =>
      if m.agentState = .showingTestPlan then handleTestPlanEnter m
      else if m.agentState = .askingConfirmation then handleConfirmationEnter m
      else if m.agentState = .idle then handleIdleEnter m input
      else (m, .none)
  | .streamStart chunks => ({ m with lastMessageRole := "assistant" }, .waitChunks chunks)
  | .streamDone => ({ m with agentState := .idle }, .none)
  | .chunkMsg c rest => handleStreamingMsg m c rest
  | .agentResponse error message reasoning toolCalls =>
      let m := { m with agentState := .idle }
      match error with
      | some e =>
          let m := if m.lastMessageRole ≠ "assistant" then addMsg m agentLabel else m
          (addMsg (addMsg m ("Error - " ++ e)) "", .none)
      | none =>
          let m := addMsg (addMsg m message) ""
          let m := { m with
            lastMessageRole := "assistant"
            conversationHistory := m.conversationHistory ++
              [{ role := "assistant", content := message, reasoningContent := reasoning
                 functionCalls := toolCalls }] }
          match toolCalls with
          | [] => (m, .none)
          | toolCall :: _ =>
              let needsConfirmation := shouldAskForConfirmation toolCall.name
              if m.executionMode = .autoExecute ∨ ¬ needsConfirmation then
                ({ m with currentToolCall := some toolCall, agentState := .usingTool },
                  .executeTool toolCall)
              else
                ({ m with
                  pendingToolCall := some toolCall, confirmationChoice := 0
                  agentState := .askingConfirmation }, .none)
  | .toolResult toolName toolID result error =>
      match error with
      | some e =>
          let m := addMsg (addMsg m ("Error: " ++ e)) ""
          let m := { m with
            lastMessageRole := "assistant"
            conversationHistory := m.conversationHistory ++
              [{ role := "user", content := "Tool error: " ++ e }]
            agentState := .thinking }
          (m, .sendChat "")
      | none =>
          let (m, nextCmd) := handleToolResult m toolName toolID result
          match nextCmd with
          | some c => ({ m with agentState := .thinking }, c)
          | none => ({ m with agentState := .idle }, .none)
  | .processToolCalls => handleProcessToolCalls m
  | .showTestSelection tests toolCall => handleShowTestSelection m tests toolCall
  | .startTestGroup tests label toolName toolID =>
      handleStartTestGroup m tests label toolName toolID
  | .runNextTest outcome => handleRunNextTest m outcome
  | .generateTestPlanResult testCases => handleGenerateTestPlanResult m testCases
  | .backendError e =>
      ({ addMsg m ("Error: " ++ e) with agentState := .idle }, .none)

/-- The model `NewTestUIModel` starts from (orchestration fields only;
`tester.NewExecutor(baseURL, authProvider)` seeds the executor with the
same credential the model holds). -/
def initModel (auth0 : AuthProviderM) : Model :=
  { agentState := .idle, executionMode := .ask, conversationHistory := []
    currentToolCall := none, pendingToolCall := none, streamedToolCalls := []
    streamedAgentMessage := "", streamedTextChunk := "", streamedReasoningChunk := ""
    currentTestToolID := "", currentTestToolName := "", currentTestGroupLabel := ""
    pendingTests := [], testGroupCompletedCount := 0, totalTestsInProgress := 0
    testGroupResults := [], pendingTestGroupToolCall := none, tests := []
    confirmationChoice := 0, lastMessageRole := "", authProvider := auth0
    executorAuth := auth0, uiMessages := [], inputTokens := 0, outputTokens := 0
    httpCalls := [] }

end CLI
end Octrafic

namespace Octrafic
namespace CLI

/-! ## Trace semantics

bubbletea runs each returned `tea.Cmd` on its own goroutine and feeds
the produced message back into `Update`; in-flight commands therefore
deliver in any order relative to later commands and key presses.  A
configuration is the model plus the multiset of commands still in
flight; `Produces` says which messages a command can deliver (network
responses, provider streams and the endpoint store are environment
choices). -/

/-- The goroutine of `sendChatMessage` pushes, on success: the
`THINK`/`TEXT` chunks forwarded from the provider stream, then
`AGENT:`, then `TOOLS:` when tool calls are present, then `TOKENS:`
and `DONE:`; on failure a single `ERROR:` chunk. -/
def ValidStream (chunks : List Chunk) : Prop :=
  (∃ e, chunks = [.err e]) ∨
  (∃ pre msgStr tcs i o,
    (∀ c ∈ pre, (∃ s, c = Chunk.think s) ∨ (∃ s, c = Chunk.text s)) ∧
    chunks = pre ++ [Chunk.agent msgStr] ++
      (if tcs.isEmpty then [] else [Chunk.tools tcs]) ++
      [Chunk.tokens i o, Chunk.done])

/-- Which message a pending command can deliver. -/
inductive Produces : Cmd → Msg → Prop where
  | sendChat (s : String) (chunks : List Chunk) (h : ValidStream chunks) :
      Produces (.sendChat s) (.streamStart chunks)
  | waitNil : Produces (.waitChunks []) .streamDone
  | waitCons (c : Chunk) (rest : List Chunk) :
      Produces (.waitChunks (c :: rest)) (.chunkMsg c rest)
  | tick : Produces .tickProcessToolCalls .processToolCalls
  | runNext (outcome : ExecOutcome) : Produces .runNextTest (.runNextTest outcome)
  | emitStart (tests : List (List (String × JVal))) (label toolName toolID : String) :
      Produces (.emitStartTestGroup tests label toolName toolID)
        (.startTestGroup tests label toolName toolID)
  | execDetailsOk (tc : ToolCall) (endpointsArg : List JVal) (results : List JVal)
      (hname : tc.name = "get_endpoints_details")
      (hargs : objLookup tc.arguments "endpoints" = some (.arr endpointsArg)) :
      Produces (.executeTool tc)
        (.toolResult "get_endpoints_details" tc.id (.obj [("endpoints", .arr results)]) none)
  | execDetailsMissing (tc : ToolCall)
      (hname : tc.name = "get_endpoints_details")
      (hargs : objLookup tc.arguments "endpoints" = none) :
      Produces (.executeTool tc)
        (.toolResult "get_endpoints_details" tc.id .null
          (some "missing required parameter: endpoints"))
  | genPlanOk (what focus : String) (testCases : List (List (String × JVal))) :
      Produces (.genTestPlanBackend what focus) (.generateTestPlanResult testCases)
  | genPlanErr (what focus : String) (e : String) :
      Produces (.genTestPlanBackend what focus) (.backendError e)

/-- Key presses the user can make at any time. -/
def IsKey : Msg → Prop
  | .keyEsc => True
  | .keyEnter _ => True
  | _ => False

/-- A configuration: the model plus the commands still in flight. -/
structure Config where
  model : Model
  inflight : List Cmd

/-- Commands added to the in-flight set by one `Update` return value
(`Cmd.none` is bubbletea's nil command). -/
def cmdList : Cmd → List Cmd
  | .none => []
  | c => [c]

/-- One scheduler step: a key press, or delivery of a message produced
by one in-flight command (which is thereby consumed). -/
inductive Step : Config → Config → Prop where
  | key (m : Model) (fl : List Cmd) (k : Msg) (hk : IsKey k) :
      Step ⟨m, fl⟩ ⟨(updateM m k).1, fl ++ cmdList (updateM m k).2⟩
  | deliver (m : Model) (fl₁ fl₂ : List Cmd) (c : Cmd) (msg : Msg)
      (hp : Produces c msg) :
      Step ⟨m, fl₁ ++ c :: fl₂⟩
        ⟨(updateM m msg).1, fl₁ ++ fl₂ ++ cmdList (updateM m msg).2⟩

/-- Reachability from the freshly constructed model. -/
def Reachable (auth0 : AuthProviderM) (cfg : Config) : Prop :=
  Relation.ReflTransGen Step ⟨initModel auth0, []⟩ cfg

end CLI
end Octrafic

namespace Octrafic
namespace CLI

/-- Spec-side description of which streamed tool call
`handleProcessToolCalls` dispatches: the four name-scans in source
order amount to a fixed name priority, first match within a name. -/
def selectStreamedToolCall (tcs : List ToolCall) : Option ToolCall :=
  match tcs.find? (fun tc => tc.name = "get_endpoints_details") with
  | some tc => some tc
  | none =>
  match tcs.find? (fun tc => tc.name = "GenerateTestPlan") with
  | some tc => some tc
  | none =>
  match tcs.find? (fun tc => tc.name = "ExecuteTestGroup") with
  | some tc => some tc
  | none => tcs.find? (fun tc => tc.name = "GenerateReport")

/-- A concrete pair of streamed tool calls where position 0 is a
`GenerateReport` call and position 1 a `get_endpoints_details` call. -/
def c4Model : Model :=
  { initModel .noAuth with
    streamedToolCalls := [⟨"a", "GenerateReport", []⟩, ⟨"b", "get_endpoints_details", []⟩] }

/-- **C4, counterexample.** On the live streamed path the orchestrator
does not take the tool call at position 0: with
`[GenerateReport(id a), get_endpoints_details(id b)]` it executes the
`get_endpoints_details` call at position 1 (and records its id). -/
theorem c4_first_position_not_taken :
    (handleProcessToolCalls c4Model).2 = .executeTool ⟨"b", "get_endpoints_details", []⟩ ∧
    (handleProcessToolCalls c4Model).1.currentTestToolID = "b" ∧
    c4Model.streamedToolCalls.head?.map (fun tc => tc.id) = some "a" := by
  refine ⟨rfl, rfl, rfl⟩

/-- **C4, amended.** `handleProcessToolCalls` executes at most one tool
call per assistant turn — not the one at position 0, but the first
match in the fixed name-priority order `get_endpoints_details`,
`GenerateTestPlan`, `ExecuteTestGroup`, `GenerateReport` — and discards
all the others (`streamedToolCalls` is cleared); when no known name is
present, nothing is executed and the state drops to `Idle`. -/
theorem processToolCalls_selects_by_priority (m : Model)
    (h : m.streamedToolCalls ≠ []) :
    match selectStreamedToolCall m.streamedToolCalls with
    | some tc =>
        (handleProcessToolCalls m).1.streamedToolCalls = [] ∧
        (((handleProcessToolCalls m).2 = .executeTool tc ∧
            (handleProcessToolCalls m).1.currentTestToolID = tc.id) ∨
          (tc.name = "GenerateTestPlan" ∧
            (((handleProcessToolCalls m).2 =
                .genTestPlanBackend (getStr tc.arguments "what")
                  (if getStr tc.arguments "focus" = "" then "happy path"
                    else getStr tc.arguments "focus") ∧
              (handleProcessToolCalls m).1.currentTestToolID = tc.id) ∨
              (getStr tc.arguments "what" = "" ∧ (handleProcessToolCalls m).2 = .none))))
    | none =>
        (handleProcessToolCalls m).2 = .none ∧
        (handleProcessToolCalls m).1.agentState = .idle ∧
        (handleProcessToolCalls m).1.conversationHistory = m.conversationHistory := by
  have hlen : m.streamedToolCalls.length > 0 := by
    cases hc : m.streamedToolCalls with
    | nil => exact absurd hc h
    | cons a l => simp [hc]
  unfold handleProcessToolCalls selectStreamedToolCall
  rw [if_pos hlen]
  cases h1 : m.streamedToolCalls.find? (fun tc => tc.name = "get_endpoints_details") with
  | some tc => exact ⟨rfl, Or.inl ⟨rfl, rfl⟩⟩
  | none =>
    cases h2 : m.streamedToolCalls.find? (fun tc => tc.name = "GenerateTestPlan") with
    | some tc =>
        have hname : tc.name = "GenerateTestPlan" := by
          have := List.find?_some h2
          simpa using this
        dsimp only
        by_cases hwhat : getStr tc.arguments "what" = ""
        · rw [if_pos hwhat]
          exact ⟨rfl, Or.inr ⟨hname, Or.inr ⟨hwhat, rfl⟩⟩⟩
        · rw [if_neg hwhat]
          exact ⟨rfl, Or.inr ⟨hname, Or.inl ⟨rfl, rfl⟩⟩⟩
    | none =>
      cases h3 : m.streamedToolCalls.find? (fun tc => tc.name = "ExecuteTestGroup") with
      | some tc => exact ⟨rfl, Or.inl ⟨rfl, rfl⟩⟩
      | none =>
        cases h4 : m.streamedToolCalls.find? (fun tc => tc.name = "GenerateReport") with
        | some tc => exact ⟨rfl, Or.inl ⟨rfl, rfl⟩⟩
        | none => exact ⟨rfl, rfl, rfl⟩

/-- Witness for `processToolCalls_selects_by_priority` at the concrete
two-call model. -/
theorem processToolCalls_selects_by_priority_witness :
    c4Model.streamedToolCalls ≠ [] ∧
    (handleProcessToolCalls c4Model).1.streamedToolCalls = [] ∧
    (handleProcessToolCalls c4Model).2 = .executeTool ⟨"b", "get_endpoints_details", []⟩ := by
  have h : c4Model.streamedToolCalls ≠ [] := by simp [c4Model, initModel]
  have := processToolCalls_selects_by_priority c4Model h
  have hsel : selectStreamedToolCall c4Model.streamedToolCalls =
      some ⟨"b", "get_endpoints_details", []⟩ := rfl
  rw [hsel] at this
  refine ⟨h, this.1, ?_⟩
  rcases this.2 with ⟨h', _⟩ | ⟨hname, _⟩
  · exact h'
  · exact absurd hname (by simp)

end CLI
end Octrafic

namespace Octrafic
namespace CLI

/-! `addMessage` only touches the displayed lines; these projection
lemmas let the proofs see through it. -/

theorem addMsg_agentState (m : Model) (s : String) : (addMsg m s).agentState = m.agentState := rfl

theorem addMsg_executionMode (m : Model) (s : String) :
    (addMsg m s).executionMode = m.executionMode := rfl

theorem addMsg_conversationHistory (m : Model) (s : String) :
    (addMsg m s).conversationHistory = m.conversationHistory := rfl

theorem addMsg_currentToolCall (m : Model) (s : String) :
    (addMsg m s).currentToolCall = m.currentToolCall := rfl

theorem addMsg_pendingToolCall (m : Model) (s : String) :
    (addMsg m s).pendingToolCall = m.pendingToolCall := rfl

theorem addMsg_streamedToolCalls (m : Model) (s : String) :
    (addMsg m s).streamedToolCalls = m.streamedToolCalls := rfl

theorem addMsg_currentTestToolID (m : Model) (s : String) :
    (addMsg m s).currentTestToolID = m.currentTestToolID := rfl

theorem addMsg_currentTestToolName (m : Model) (s : String) :
    (addMsg m s).currentTestToolName = m.currentTestToolName := rfl

theorem addMsg_pendingTests (m : Model) (s : String) :
    (addMsg m s).pendingTests = m.pendingTests := rfl

theorem addMsg_testGroupCompletedCount (m : Model) (s : String) :
    (addMsg m s).testGroupCompletedCount = m.testGroupCompletedCount := rfl

theorem addMsg_testGroupResults (m : Model) (s : String) :
    (addMsg m s).testGroupResults = m.testGroupResults := rfl

theorem addMsg_lastMessageRole (m : Model) (s : String) :
    (addMsg m s).lastMessageRole = m.lastMessageRole := rfl

theorem addMsg_authProvider (m : Model) (s : String) :
    (addMsg m s).authProvider = m.authProvider := rfl

theorem addMsg_executorAuth (m : Model) (s : String) :
    (addMsg m s).executorAuth = m.executorAuth := rfl

theorem addMsg_httpCalls (m : Model) (s : String) : (addMsg m s).httpCalls = m.httpCalls := rfl

theorem addMsg_confirmationChoice (m : Model) (s : String) :
    (addMsg m s).confirmationChoice = m.confirmationChoice := rfl

theorem addMsg_tests (m : Model) (s : String) : (addMsg m s).tests = m.tests := rfl

theorem addMsg_uiMessages (m : Model) (s : String) :
    (addMsg m s).uiMessages = m.uiMessages ++ [s] := rfl

attribute [simp] addMsg_agentState addMsg_executionMode addMsg_conversationHistory
attribute [simp] addMsg_currentToolCall addMsg_pendingToolCall addMsg_streamedToolCalls
attribute [simp] addMsg_currentTestToolID addMsg_currentTestToolName addMsg_pendingTests
attribute [simp] addMsg_testGroupCompletedCount addMsg_testGroupResults
attribute [simp] addMsg_lastMessageRole addMsg_authProvider addMsg_executorAuth
attribute [simp] addMsg_httpCalls addMsg_confirmationChoice addMsg_tests addMsg_uiMessages

end CLI
end Octrafic

namespace Octrafic
namespace CLI

/-- A model in the default ask mode holding one streamed
`get_endpoints_details` tool call. -/
def c5Model : Model :=
  { initModel .noAuth with
    streamedToolCalls := [⟨"x", "get_endpoints_details", [("endpoints", JVal.arr [])]⟩] }

/-- **C5, counterexample.** In ask mode, a streamed
`get_endpoints_details` tool call is executed immediately by
`handleProcessToolCalls` — the state moves to `Thinking` and an
execute command is issued, never `AskingConfirmation` — even though
`shouldAskForConfirmation` classifies the tool as needing
confirmation. -/
theorem c5_streamed_details_executes_without_confirmation :
    c5Model.executionMode = .ask ∧
    shouldAskForConfirmation "get_endpoints_details" = true ∧
    (handleProcessToolCalls c5Model).2 =
      .executeTool ⟨"x", "get_endpoints_details", [("endpoints", JVal.arr [])]⟩ ∧
    (handleProcessToolCalls c5Model).1.agentState = .thinking ∧
    (handleProcessToolCalls c5Model).1.pendingToolCall = none := by
  refine ⟨rfl, by decide, rfl, rfl, rfl⟩

/-- **C5, amended.** The allow-list confirmation gate lives only on the
`agentResponseMsg` path of `Update`: there, in ask mode, a tool call
whose name is outside {GenerateTestPlan, ExecuteTestGroup,
GenerateReport} parks as `pendingToolCall` in `AskingConfirmation`
with no execute command, while allow-listed tools (or any tool in
auto-execute mode) execute immediately; approval (Enter on choice 0)
then executes exactly the pending call and denial (choice 1) discards
it.  Streamed tool calls dispatched via `handleProcessToolCalls` are
never gated: a streamed `get_endpoints_details` call executes at once
even in ask mode. -/
theorem confirmation_gate_spec (m : Model) (message reasoning : String)
    (tc : ToolCall) (rest : List ToolCall) :
    (m.executionMode = .ask → shouldAskForConfirmation tc.name = true →
      (updateM m (.agentResponse none message reasoning (tc :: rest))).1.agentState =
        .askingConfirmation ∧
      (updateM m (.agentResponse none message reasoning (tc :: rest))).1.pendingToolCall =
        some tc ∧
      (updateM m (.agentResponse none message reasoning (tc :: rest))).2 = .none) ∧
    ((m.executionMode = .autoExecute ∨ shouldAskForConfirmation tc.name = false) →
      (updateM m (.agentResponse none message reasoning (tc :: rest))).1.agentState =
        .usingTool ∧
      (updateM m (.agentResponse none message reasoning (tc :: rest))).2 =
        .executeTool tc) ∧
    (∀ m' : Model, m'.agentState = .askingConfirmation → m'.pendingToolCall = some tc →
      (m'.confirmationChoice = 0 →
        (updateM m' (.keyEnter "")).2 = .executeTool tc ∧
        (updateM m' (.keyEnter "")).1.agentState = .usingTool) ∧
      (m'.confirmationChoice = 1 →
        (updateM m' (.keyEnter "")).2 = .none ∧
        (updateM m' (.keyEnter "")).1.agentState = .idle ∧
        (updateM m' (.keyEnter "")).1.pendingToolCall = none)) ∧
    (∀ m' : Model, m'.streamedToolCalls = [tc] → tc.name = "get_endpoints_details" →
      (handleProcessToolCalls m').2 = .executeTool tc ∧
      (handleProcessToolCalls m').1.agentState = .thinking) := by
  refine ⟨?_, ?_, ?_, ?_⟩
  · intro hmode hneed
    simp only [updateM, addMsg]
    rw [if_neg (by simp [hmode, hneed])]
    exact ⟨rfl, rfl, rfl⟩
  · intro hexec
    simp only [updateM, addMsg]
    rw [if_pos (by
      rcases hexec with h | h
      · exact Or.inl h
      · exact Or.inr (by simp [h]))]
    exact ⟨rfl, rfl⟩
  · intro m' hstate hpend
    constructor
    · intro hchoice
      simp only [updateM]
      rw [if_neg (by simp [hstate]), if_pos hstate]
      unfold handleConfirmationEnter
      rw [if_pos hchoice, hpend]
      exact ⟨rfl, rfl⟩
    · intro hchoice
      simp only [updateM]
      rw [if_neg (by simp [hstate]), if_pos hstate]
      unfold handleConfirmationEnter
      rw [if_neg (by simp [hchoice]), if_pos hchoice]
      by_cases hrole : m'.lastMessageRole ≠ "assistant" <;>
        simp [hrole, addMsg]
  · intro m' hstreamed hname
    unfold handleProcessToolCalls
    rw [if_pos (by simp [hstreamed])]
    rw [hstreamed]
    simp only [List.find?_cons, hname]
    exact ⟨by simp [hname], by simp [hname]⟩

/-- Witness for `confirmation_gate_spec`: concrete ask-mode model and a
`get_endpoints_details` call. -/
theorem confirmation_gate_spec_witness :
    (initModel .noAuth).executionMode = .ask ∧
    shouldAskForConfirmation "get_endpoints_details" = true ∧
    (updateM (initModel .noAuth)
      (.agentResponse none "" "" [⟨"x", "get_endpoints_details", []⟩])).1.agentState =
        .askingConfirmation ∧
    c5Model.streamedToolCalls = [⟨"x", "get_endpoints_details", [("endpoints", JVal.arr [])]⟩] ∧
    (handleProcessToolCalls c5Model).1.agentState = .thinking := by
  have h := confirmation_gate_spec (initModel .noAuth) "" ""
    ⟨"x", "get_endpoints_details", []⟩ []
  have h2 := confirmation_gate_spec c5Model "" ""
    ⟨"x", "get_endpoints_details", [("endpoints", JVal.arr [])]⟩ []
  refine ⟨rfl, by decide, (h.1 rfl (by decide)).1, rfl,
    (h2.2.2.2 c5Model rfl rfl).2⟩

end CLI
end Octrafic

namespace Octrafic
namespace CLI

/-- **C7.** One `handleRunNextTest` execution step issues exactly one
HTTP call for the dequeued test; when the test has
`requires_auth=false` the call runs under the no-op credential and the
executor's credential afterwards equals the model's configured
credential — whatever the call's outcome, error included; when
`requires_auth=true` neither swap nor restore happens.  When the
executor held the configured credential before the step (as the
constructor `NewExecutor(baseURL, authProvider)` guarantees), the
credential is therefore restored exactly. -/
theorem auth_swap_restore (m : Model) (outcome : ExecOutcome)
    (testMap : List (String × JVal)) (rest : List (List (String × JVal)))
    (hq : m.pendingTests = testMap :: rest) :
    (handleRunNextTest m outcome).1.httpCalls = m.httpCalls ++
      [{ method := getStr testMap "method", endpoint := getStr testMap "endpoint",
         auth := if getBoolD testMap "requires_auth" false then m.executorAuth
           else .noAuth }] ∧
    (getBoolD testMap "requires_auth" false = false →
      (handleRunNextTest m outcome).1.executorAuth = m.authProvider) ∧
    (getBoolD testMap "requires_auth" false = true →
      (handleRunNextTest m outcome).1.executorAuth = m.executorAuth) ∧
    (m.executorAuth = m.authProvider →
      (handleRunNextTest m outcome).1.executorAuth = m.executorAuth) ∧
    (handleRunNextTest m outcome).1.authProvider = m.authProvider := by
  unfold handleRunNextTest
  rw [hq]
  by_cases hra : getBoolD testMap "requires_auth" false
  · simp only [hra]
    cases outcome <;>
      simp [addMsg]
  · simp only [hra]
    cases outcome <;>
      simp_all [addMsg]

/-- Witness for `auth_swap_restore`: an auth-exempt test in front of
the queue, failing HTTP call; the bearer credential survives. -/
theorem auth_swap_restore_witness :
    ({ initModel (.bearer "tok".toList) with
        pendingTests := [[("method", JVal.str "GET"), ("endpoint", JVal.str "/a"),
          ("requires_auth", JVal.bool false)]] } : Model).pendingTests =
      [[("method", JVal.str "GET"), ("endpoint", JVal.str "/a"),
        ("requires_auth", JVal.bool false)]] ∧
    (handleRunNextTest
      { initModel (.bearer "tok".toList) with
        pendingTests := [[("method", JVal.str "GET"), ("endpoint", JVal.str "/a"),
          ("requires_auth", JVal.bool false)]] }
      (.fail "connection refused")).1.executorAuth = .bearer "tok".toList ∧
    (handleRunNextTest
      { initModel (.bearer "tok".toList) with
        pendingTests := [[("method", JVal.str "GET"), ("endpoint", JVal.str "/a"),
          ("requires_auth", JVal.bool false)]] }
      (.fail "connection refused")).1.httpCalls =
      [{ method := "GET", endpoint := "/a", auth := .noAuth }] := by
  have h := auth_swap_restore
    { initModel (.bearer "tok".toList) with
      pendingTests := [[("method", JVal.str "GET"), ("endpoint", JVal.str "/a"),
        ("requires_auth", JVal.bool false)]] }
    (.fail "connection refused")
    [("method", JVal.str "GET"), ("endpoint", JVal.str "/a"),
      ("requires_auth", JVal.bool false)] [] rfl
  refine ⟨rfl, ?_, ?_⟩
  · have := h.2.1 (by decide)
    simpa [initModel] using this
  · have := h.1
    simpa [initModel, getStr, getBoolD, objLookup] using this

end CLI
end Octrafic

namespace Octrafic
namespace CLI

/-- A UI-initiated batch at its completion step: three tests already
executed, no provider tool id held (`currentTestToolID = ""`), queue
empty. -/
def c6Model : Model :=
  { initModel .noAuth with
    agentState := .runningTests
    testGroupCompletedCount := 3
    testGroupResults := [.obj [("method", .str "GET"), ("endpoint", .str "/a"),
      ("status_code", .int 200), ("response_body", .str "ok"),
      ("duration_ms", .int 5), ("requires_auth", .bool false)]]
    conversationHistory := [{ role := "user", content := "run my tests" }] }

/-- The discarded-argument fact behind the C6 divergence:
`sendChatMessage(_ string)` ignores its parameter, so a
`sendChat`-command's possible deliveries do not depend on it. -/
theorem sendChat_argument_discarded (s₁ s₂ : String) (msg : Msg)
    (h : Produces (.sendChat s₁) msg) : Produces (.sendChat s₂) msg := by
  cases h with
  | sendChat _ chunks hv => exact .sendChat s₂ chunks hv

/-- **C6 (code bug).** Completing a UI-initiated batch (empty tool id)
appends nothing to the conversation history — in particular no summary
user turn — even though the code builds the summary string and passes
it to `sendChatMessage`, whose parameter is declared `_` and discarded;
the next provider call therefore resumes on the unchanged history.
The inline comment ("Tests were triggered by UI - send summary message
to Claude") documents the intent the code misses. -/
theorem c6_ui_batch_summary_never_sent :
    (handleRunNextTest c6Model (.fail "unused")).1.conversationHistory =
      [{ role := "user", content := "run my tests" }] ∧
    (handleRunNextTest c6Model (.fail "unused")).1.agentState = .processing ∧
    (handleRunNextTest c6Model (.fail "unused")).2 =
      .sendChat ("Tests completed. 3 tests executed. " ++
        "Would you like me to analyze the results or run more tests?") ∧
    c6Model.currentTestToolID = "" := by
  refine ⟨rfl, rfl, rfl, rfl⟩

end CLI
end Octrafic

namespace Octrafic
namespace CLI

/-! ## A reachable run with a cancelled tool call and a late result

User asks; the assistant answers with a `get_endpoints_details` tool
call; the orchestrator starts executing it; the user presses Esc
(cancel) and starts a fresh exchange which completes without tool
calls; then the cancelled call's result arrives late. -/

/-- The tool call of the first exchange. -/
def tcD : ToolCall := ⟨"t1", "get_endpoints_details", [("endpoints", JVal.arr [])]⟩

/-- Provider stream of the first exchange (text, the tool call, usage,
done). -/
def chunksA : List Chunk := [.agent "ok", .tools [tcD], .tokens 1 2, .done]

/-- Provider stream of the second exchange (no tool calls). -/
def chunksB : List Chunk := [.agent "fine", .tokens 1 1, .done]

/-- The cancelled call's late result message. -/
def lateResult : Msg :=
  .toolResult "get_endpoints_details" "t1" (.obj [("endpoints", .arr [])]) none

def cm0 : Model := initModel .noAuth
def cm1 : Model := (updateM cm0 (.keyEnter "hi")).1
def cm2 : Model := (updateM cm1 (.streamStart chunksA)).1
def cm3 : Model := (updateM cm2 (.chunkMsg (.agent "ok") [.tools [tcD], .tokens 1 2, .done])).1
def cm4 : Model := (updateM cm3 (.chunkMsg (.tools [tcD]) [.tokens 1 2, .done])).1
def cm5 : Model := (updateM cm4 (.chunkMsg (.tokens 1 2) [.done])).1
def cm6 : Model := (updateM cm5 (.chunkMsg .done [])).1
def cm7 : Model := (updateM cm6 .processToolCalls).1
def cm8 : Model := (updateM cm7 .keyEsc).1
def cm9 : Model := (updateM cm8 (.keyEnter "again")).1
def cm10 : Model := (updateM cm9 (.streamStart chunksB)).1
def cm11 : Model := (updateM cm10 (.chunkMsg (.agent "fine") [.tokens 1 1, .done])).1
def cm12 : Model := (updateM cm11 (.chunkMsg (.tokens 1 1) [.done])).1
def cm13 : Model := (updateM cm12 (.chunkMsg .done [])).1
def cm14 : Model := (updateM cm13 lateResult).1

theorem reach13 : Reachable .noAuth ⟨cm13, [.executeTool tcD]⟩ := by
  have s1 : Step ⟨cm0, []⟩ ⟨cm1, [.sendChat "hi"]⟩ :=
    Step.key cm0 [] (.keyEnter "hi") trivial
  have hv : ValidStream chunksA := by
    refine Or.inr ⟨[], "ok", [tcD], 1, 2, ?_, rfl⟩
    intro c hc
    simp at hc
  have s2 : Step ⟨cm1, [.sendChat "hi"]⟩ ⟨cm2, [.waitChunks chunksA]⟩ :=
    Step.deliver cm1 [] [] (.sendChat "hi") (.streamStart chunksA)
      (Produces.sendChat "hi" chunksA hv)
  have s3 : Step ⟨cm2, [.waitChunks chunksA]⟩
      ⟨cm3, [.waitChunks [.tools [tcD], .tokens 1 2, .done]]⟩ :=
    Step.deliver cm2 [] [] (.waitChunks chunksA)
      (.chunkMsg (.agent "ok") [.tools [tcD], .tokens 1 2, .done])
      (Produces.waitCons (.agent "ok") [.tools [tcD], .tokens 1 2, .done])
  have s4 : Step ⟨cm3, [.waitChunks [.tools [tcD], .tokens 1 2, .done]]⟩
      ⟨cm4, [.waitChunks [.tokens 1 2, .done]]⟩ :=
    Step.deliver cm3 [] [] (.waitChunks [.tools [tcD], .tokens 1 2, .done])
      (.chunkMsg (.tools [tcD]) [.tokens 1 2, .done])
      (Produces.waitCons (.tools [tcD]) [.tokens 1 2, .done])
  have s5 : Step ⟨cm4, [.waitChunks [.tokens 1 2, .done]]⟩
      ⟨cm5, [.waitChunks [.done]]⟩ :=
    Step.deliver cm4 [] [] (.waitChunks [.tokens 1 2, .done])
      (.chunkMsg (.tokens 1 2) [.done])
      (Produces.waitCons (.tokens 1 2) [.done])
  have s6 : Step ⟨cm5, [.waitChunks [.done]]⟩ ⟨cm6, [.tickProcessToolCalls]⟩ :=
    Step.deliver cm5 [] [] (.waitChunks [.done]) (.chunkMsg .done [])
      (Produces.waitCons .done [])
  have s7 : Step ⟨cm6, [.tickProcessToolCalls]⟩ ⟨cm7, [.executeTool tcD]⟩ :=
    Step.deliver cm6 [] [] .tickProcessToolCalls .processToolCalls Produces.tick
  have s8 : Step ⟨cm7, [.executeTool tcD]⟩ ⟨cm8, [.executeTool tcD]⟩ :=
    Step.key cm7 [.executeTool tcD] .keyEsc trivial
  have s9 : Step ⟨cm8, [.executeTool tcD]⟩ ⟨cm9, [.executeTool tcD, .sendChat "again"]⟩ :=
    Step.key cm8 [.executeTool tcD] (.keyEnter "again") trivial
  have hv2 : ValidStream chunksB := by
    refine Or.inr ⟨[], "fine", [], 1, 1, ?_, rfl⟩
    intro c hc
    simp at hc
  have s10 : Step ⟨cm9, [.executeTool tcD, .sendChat "again"]⟩
      ⟨cm10, [.executeTool tcD, .waitChunks chunksB]⟩ :=
    Step.deliver cm9 [.executeTool tcD] [] (.sendChat "again") (.streamStart chunksB)
      (Produces.sendChat "again" chunksB hv2)
  have s11 : Step ⟨cm10, [.executeTool tcD, .waitChunks chunksB]⟩
      ⟨cm11, [.executeTool tcD, .waitChunks [.tokens 1 1, .done]]⟩ :=
    Step.deliver cm10 [.executeTool tcD] [] (.waitChunks chunksB)
      (.chunkMsg (.agent "fine") [.tokens 1 1, .done])
      (Produces.waitCons (.agent "fine") [.tokens 1 1, .done])
  have s12 : Step ⟨cm11, [.executeTool tcD, .waitChunks [.tokens 1 1, .done]]⟩
      ⟨cm12, [.executeTool tcD, .waitChunks [.done]]⟩ :=
    Step.deliver cm11 [.executeTool tcD] [] (.waitChunks [.tokens 1 1, .done])
      (.chunkMsg (.tokens 1 1) [.done])
      (Produces.waitCons (.tokens 1 1) [.done])
  have s13 : Step ⟨cm12, [.executeTool tcD, .waitChunks [.done]]⟩
      ⟨cm13, [.executeTool tcD]⟩ :=
    Step.deliver cm12 [.executeTool tcD] [] (.waitChunks [.done]) (.chunkMsg .done [])
      (Produces.waitCons .done [])
  exact ((((((((((((Relation.ReflTransGen.refl.tail s1).tail s2).tail s3).tail
    s4).tail s5).tail s6).tail s7).tail s8).tail s9).tail s10).tail s11).tail
    s12).tail s13

theorem reach14 : Reachable .noAuth ⟨cm14, [.sendChat ""]⟩ := by
  have s14 : Step ⟨cm13, [.executeTool tcD]⟩ ⟨cm14, [.sendChat ""]⟩ :=
    Step.deliver cm13 [] [] (.executeTool tcD) lateResult
      (Produces.execDetailsOk tcD [] [] rfl rfl)
  exact reach13.tail s14

end CLI
end Octrafic

namespace Octrafic
namespace CLI

/-- The tool-call ids offered by the most recent assistant message of a
history (empty when there is none). -/
def lastAssistantToolIds (h : List ChatMessage) : List String :=
  match h.reverse.find? (fun msg => msg.role = "assistant") with
  | some a => a.functionCalls.map (·.id)
  | none => []

/-- The pairing invariant claimed for conversation histories: every
message carrying a `FunctionResponse` answers a tool call of the most
recent assistant message preceding it. -/
def ToolResultPairing (h : List ChatMessage) : Prop :=
  ∀ i (hi : i < h.length) fr, (h.get ⟨i, hi⟩).functionResponse = some fr →
    fr.id ∈ lastAssistantToolIds (h.take i)

/-- **C3, counterexample.** The pairing invariant fails on a reachable
history: after the user cancels an in-flight `get_endpoints_details`
call and completes a fresh exchange, the cancelled call's late result
is still appended — its `FunctionResponse.ID` (`t1`) answers the
assistant message of the *first* exchange, while the most recent
preceding assistant message (of the second exchange) carries no tool
calls, and a new user-text message stands in between. -/
theorem c3_pairing_violated_on_reachable_history :
    Reachable .noAuth ⟨cm14, [.sendChat ""]⟩ ∧
    ¬ ToolResultPairing cm14.conversationHistory := by
  refine ⟨reach14, ?_⟩
  intro hp
  have hlen : cm14.conversationHistory.length = 5 := rfl
  have h4 := hp 4 (by omega)
    ⟨"t1", "get_endpoints_details", .obj [("endpoints", .arr [])]⟩ rfl
  have hids : lastAssistantToolIds (cm14.conversationHistory.take 4) = [] := rfl
  rw [hids] at h4
  simp at h4

/-- The id every history append of one update step carries: the
`toolID` delivered in a tool-result message, or the stored
`currentTestToolID` for test-group completions and test-plan results. -/
def carriedId (m : Model) : Msg → String
  | .toolResult _ toolID _ _ => toolID
  | .runNextTest _ => m.currentTestToolID
  | .generateTestPlanResult _ => m.currentTestToolID
  | _ => ""

theorem handleToolResult_history (m : Model) (toolName toolID : String) (result : JVal) :
    ∃ Δ, (handleToolResult m toolName toolID result).1.conversationHistory =
        m.conversationHistory ++ Δ ∧
      ∀ cm ∈ Δ, ∀ fr, cm.functionResponse = some fr → fr.id = toolID ∧ fr.id ≠ "" := by
  unfold handleToolResult
  by_cases h1 : toolName = "ExecuteTest"
  · rw [if_pos h1]
    cases result with
    | obj rm =>
        dsimp only
        by_cases hid : toolID ≠ ""
        · rw [if_pos hid]
          refine ⟨_, rfl, ?_⟩
          intro cm hcm fr hfr
          simp at hcm
          subst hcm
          simp at hfr
          subst hfr
          exact ⟨rfl, hid⟩
        · rw [if_neg hid]
          exact ⟨[], by simp, by simp⟩
    | null => exact ⟨[], by simp, by simp⟩
    | str s => exact ⟨[], by simp, by simp⟩
    | int n => exact ⟨[], by simp, by simp⟩
    | bool b => exact ⟨[], by simp, by simp⟩
    | arr xs => exact ⟨[], by simp, by simp⟩
  · rw [if_neg h1]
    by_cases h2 : toolName = "ExecuteTestGroup"
    · rw [if_pos h2]
      cases result with
      | obj rm =>
          dsimp only
          by_cases hid : toolID ≠ ""
          · rw [if_pos hid]
            refine ⟨_, rfl, ?_⟩
            intro cm hcm fr hfr
            simp at hcm
            subst hcm
            simp at hfr
            subst hfr
            exact ⟨rfl, hid⟩
          · rw [if_neg hid]
            exact ⟨[], by simp, by simp⟩
      | null => exact ⟨[], by simp, by simp⟩
      | str s => exact ⟨[], by simp, by simp⟩
      | int n => exact ⟨[], by simp, by simp⟩
      | bool b => exact ⟨[], by simp, by simp⟩
      | arr xs => exact ⟨[], by simp, by simp⟩
    · rw [if_neg h2]
      by_cases h3 : toolName = "get_endpoints_details"
      · rw [if_pos h3]
        by_cases hid : toolID ≠ ""
        · rw [if_pos hid]
          refine ⟨_, rfl, ?_⟩
          intro cm hcm fr hfr
          simp at hcm
          subst hcm
          simp at hfr
          subst hfr
          exact ⟨rfl, hid⟩
        · rw [if_neg hid]
          exact ⟨[], by simp, by simp⟩
      · rw [if_neg h3]
        by_cases h4 : toolName = "GenerateReport"
        · rw [if_pos h4]
          cases result with
          | obj rm =>
              dsimp only
              by_cases hid : toolID ≠ ""
              · rw [if_pos hid]
                refine ⟨_, rfl, ?_⟩
                intro cm hcm fr hfr
                simp at hcm
                subst hcm
                simp at hfr
                subst hfr
                exact ⟨rfl, hid⟩
              · rw [if_neg hid]
                exact ⟨[], by simp, by simp⟩
          | null => exact ⟨[], by simp, by simp⟩
          | str s => exact ⟨[], by simp, by simp⟩
          | int n => exact ⟨[], by simp, by simp⟩
          | bool b => exact ⟨[], by simp, by simp⟩
          | arr xs => exact ⟨[], by simp, by simp⟩
        · rw [if_neg h4]
          by_cases h5 : toolName = "GenerateTestPlan"
          · rw [if_pos h5]
            by_cases hid : toolID ≠ ""
            · rw [if_pos hid]
              refine ⟨_, rfl, ?_⟩
              intro cm hcm fr hfr
              simp at hcm
              subst hcm
              simp at hfr
              subst hfr
              exact ⟨rfl, hid⟩
            · rw [if_neg hid]
              exact ⟨[], by simp, by simp⟩
          · rw [if_neg h5]
            exact ⟨[], by simp, by simp⟩

end CLI
end Octrafic

namespace Octrafic
namespace CLI

/-! Definitional reductions of `updateM`, one per message kind. -/

theorem updateM_keyEsc (m : Model) : updateM m .keyEsc = handleEsc m := rfl

theorem updateM_keyEnter (m : Model) (input : String) :
    updateM m (.keyEnter input) =
      if m.agentState = .showingTestPlan then handleTestPlanEnter m
      else if m.agentState = .askingConfirmation then handleConfirmationEnter m
      else if m.agentState = .idle then handleIdleEnter m input
      else (m, .none) := rfl

theorem updateM_streamStart (m : Model) (chunks : List Chunk) :
    updateM m (.streamStart chunks) =
      ({ m with lastMessageRole := "assistant" }, .waitChunks chunks) := rfl

theorem updateM_streamDone (m : Model) :
    updateM m .streamDone = ({ m with agentState := .idle }, .none) := rfl

theorem updateM_chunkMsg (m : Model) (c : Chunk) (rest : List Chunk) :
    updateM m (.chunkMsg c rest) = handleStreamingMsg m c rest := rfl

theorem updateM_processToolCalls (m : Model) :
    updateM m .processToolCalls = handleProcessToolCalls m := rfl

theorem updateM_showTestSelection (m : Model) (tests : List (List (String × JVal)))
    (toolCall : ToolCall) :
    updateM m (.showTestSelection tests toolCall) =
      handleShowTestSelection m tests toolCall := rfl

theorem updateM_startTestGroup (m : Model) (tests : List (List (String × JVal)))
    (label toolName toolID : String) :
    updateM m (.startTestGroup tests label toolName toolID) =
      handleStartTestGroup m tests label toolName toolID := rfl

theorem updateM_runNextTest (m : Model) (outcome : ExecOutcome) :
    updateM m (.runNextTest outcome) = handleRunNextTest m outcome := rfl

theorem updateM_generateTestPlanResult (m : Model)
    (testCases : List (List (String × JVal))) :
    updateM m (.generateTestPlanResult testCases) =
      handleGenerateTestPlanResult m testCases := rfl

theorem updateM_backendError (m : Model) (e : String) :
    updateM m (.backendError e) =
      ({ addMsg m ("Error: " ++ e) with agentState := .idle }, .none) := rfl

theorem handleEsc_history (m : Model) :
    (handleEsc m).1.conversationHistory = m.conversationHistory := by
  unfold handleEsc
  dsimp only
  split_ifs <;> simp [addMsg]

theorem handleTestPlanEnter_history (m : Model) :
    (handleTestPlanEnter m).1.conversationHistory = m.conversationHistory := by
  unfold handleTestPlanEnter
  dsimp only
  split_ifs <;> simp [addMsg]

theorem handleConfirmationEnter_history (m : Model) :
    (handleConfirmationEnter m).1.conversationHistory = m.conversationHistory := by
  unfold handleConfirmationEnter
  split
  · split <;> simp
  · split
    · dsimp only
      split_ifs <;> simp [addMsg]
    · dsimp only
      split
      · cases hsp : skipFirstPending m.tests with
        | some p =>
            cases p with
            | mk t tests' =>
                dsimp only
                split_ifs <;> simp [addMsg]
        | none =>
            dsimp only
            split_ifs <;> simp [addMsg]
      · split_ifs <;> simp [addMsg]

theorem handleProcessToolCalls_history (m : Model) :
    (handleProcessToolCalls m).1.conversationHistory = m.conversationHistory := by
  unfold handleProcessToolCalls
  dsimp only
  split_ifs with h
  · split
    · simp [addMsg]
    · split
      · split_ifs <;> simp [addMsg]
      · split
        · simp [addMsg]
        · split <;> simp [addMsg]
  · simp

end CLI
end Octrafic

namespace Octrafic
namespace CLI

theorem handleStartTestGroup_history (m : Model) (tests : List (List (String × JVal)))
    (label toolName toolID : String) :
    (handleStartTestGroup m tests label toolName toolID).1.conversationHistory =
      m.conversationHistory := by
  unfold handleStartTestGroup
  dsimp only
  split_ifs <;> simp [addMsg]

theorem handleShowTestSelection_history (m : Model) (tests : List (List (String × JVal)))
    (toolCall : ToolCall) :
    (handleShowTestSelection m tests toolCall).1.conversationHistory =
      m.conversationHistory := rfl

/-- **C3 (amended, part of).** See `history_appends_carry_origin_id`. -/
theorem handleStreamingMsg_history (m : Model) (c : Chunk) (rest : List Chunk) :
    (handleStreamingMsg m c rest).1.conversationHistory =
      m.conversationHistory ++
        (match c with
          | .done =>
              [{ role := "assistant", content := m.streamedAgentMessage,
                 functionCalls :=
                   if m.streamedToolCalls.length > 0 then m.streamedToolCalls else [] }]
          | _ => []) := by
  unfold handleStreamingMsg
  cases c with
  | err e => simp [addMsg]
  | agent s =>
      dsimp only
      split_ifs <;> simp [addMsg]
  | tokens i o => simp
  | done =>
      dsimp only
      split_ifs <;> simp_all [addMsg]
  | tools tcs => simp
  | think s => simp
  | text s => simp

theorem handleRunNextTest_exec_history (m : Model) (outcome : ExecOutcome)
    (testMap : List (String × JVal)) (rest : List (List (String × JVal)))
    (hq : m.pendingTests = testMap :: rest) :
    (handleRunNextTest m outcome).1.conversationHistory = m.conversationHistory := by
  unfold handleRunNextTest
  rw [hq]
  dsimp only
  split_ifs <;> cases outcome <;> simp [addMsg]

end CLI
end Octrafic

namespace Octrafic
namespace CLI

/-- **C3, amended.** The orchestrator carries the originating tool
call's id forward by construction: in every single update step the
conversation history is append-only, and every appended message
carrying a `FunctionResponse` carries exactly the originating id — the
`toolID` delivered with the tool result, or the stored
`currentTestToolID` — and that id is non-empty.  The counterexample
shows the stronger claimed form (id always matches the most recent
preceding assistant message, and no user message intervenes) fails on
a reachable history with a cancelled call's late result. -/
theorem history_appends_carry_origin_id (m : Model) (msg : Msg) :
    ∃ Δ, (updateM m msg).1.conversationHistory = m.conversationHistory ++ Δ ∧
      ∀ cm ∈ Δ, ∀ fr, cm.functionResponse = some fr →
        fr.id = carriedId m msg ∧ fr.id ≠ "" := by
  cases msg with
  | keyEsc =>
      exact ⟨[], by rw [updateM_keyEsc, handleEsc_history]; simp, by simp⟩
  | keyEnter input =>
      rw [updateM_keyEnter]
      by_cases h1 : m.agentState = .showingTestPlan
      · rw [if_pos h1]
        exact ⟨[], by rw [handleTestPlanEnter_history]; simp, by simp⟩
      · rw [if_neg h1]
        by_cases h2 : m.agentState = .askingConfirmation
        · rw [if_pos h2]
          exact ⟨[], by rw [handleConfirmationEnter_history]; simp, by simp⟩
        · rw [if_neg h2]
          by_cases h3 : m.agentState = .idle
          · rw [if_pos h3]
            unfold handleIdleEnter
            split
            · exact ⟨[{ role := "user", content := input }], by simp, by simp⟩
            · exact ⟨[], by simp, by simp⟩
          · rw [if_neg h3]
            exact ⟨[], by simp, by simp⟩
  | streamStart chunks => exact ⟨[], by rw [updateM_streamStart]; simp, by simp⟩
  | streamDone => exact ⟨[], by rw [updateM_streamDone]; simp, by simp⟩
  | chunkMsg c rest =>
      refine ⟨(match c with
        | .done =>
            [{ role := "assistant", content := m.streamedAgentMessage,
               functionCalls :=
                 if m.streamedToolCalls.length > 0 then m.streamedToolCalls else [] }]
        | _ => []), by rw [updateM_chunkMsg, handleStreamingMsg_history], ?_⟩
      cases c <;> simp
  | agentResponse error message reasoning toolCalls =>
      cases error with
      | some e =>
          refine ⟨[], ?_, by simp⟩
          show ((let m1 := { m with agentState := AgentState.idle };
            let m2 := if m1.lastMessageRole ≠ "assistant" then addMsg m1 agentLabel else m1;
            (addMsg (addMsg m2 ("Error - " ++ e)) "", Cmd.none)) :
              Model × Cmd).1.conversationHistory = m.conversationHistory ++ []
          dsimp only
          split_ifs <;> simp [addMsg]
      | none =>
          refine ⟨[{ role := "assistant", content := message,
                     reasoningContent := reasoning, functionCalls := toolCalls }],
            ?_, by simp⟩
          show (updateM m (.agentResponse none message reasoning toolCalls)).1.conversationHistory
            = _
          unfold updateM
          dsimp only
          cases toolCalls with
          | nil => simp [addMsg]
          | cons tc rest =>
              dsimp only
              split_ifs <;> simp [addMsg]
  | toolResult toolName toolID result error =>
      cases error with
      | some e =>
          refine ⟨[{ role := "user", content := "Tool error: " ++ e }], ?_, by simp⟩
          show ((let m1 := addMsg (addMsg m ("Error: " ++ e)) "";
            let m2 := { m1 with
              lastMessageRole := "assistant"
              conversationHistory := m1.conversationHistory ++
                [{ role := "user", content := "Tool error: " ++ e }]
              agentState := .thinking };
            (m2, Cmd.sendChat "") : Model × Cmd)).1.conversationHistory = _
          dsimp only
          simp [addMsg]
      | none =>
          obtain ⟨Δ, hΔ, hfr⟩ := handleToolResult_history m toolName toolID result
          refine ⟨Δ, ?_, fun cm hcm fr h => hfr cm hcm fr h⟩
          show (updateM m (.toolResult toolName toolID result none)).1.conversationHistory = _
          unfold updateM
          dsimp only
          cases hc : (handleToolResult m toolName toolID result).2 with
          | some c => simpa using hΔ
          | none => simpa using hΔ
  | processToolCalls =>
      exact ⟨[], by rw [updateM_processToolCalls, handleProcessToolCalls_history]; simp,
        by simp⟩
  | showTestSelection tests toolCall =>
      exact ⟨[], by rw [updateM_showTestSelection, handleShowTestSelection_history]; simp,
        by simp⟩
  | startTestGroup tests label toolName toolID =>
      exact ⟨[], by rw [updateM_startTestGroup, handleStartTestGroup_history]; simp,
        by simp⟩
  | runNextTest outcome =>
      rw [updateM_runNextTest]
      cases hq : m.pendingTests with
      | nil =>
          unfold handleRunNextTest
          rw [hq]
          dsimp only
          simp only [addMsg_currentTestToolID, addMsg_currentTestToolName,
            addMsg_conversationHistory, addMsg_testGroupCompletedCount,
            addMsg_testGroupResults]
          by_cases hid : m.currentTestToolID ≠ ""
          · refine ⟨[{ role := "user",
                       functionResponse := some ⟨m.currentTestToolID, m.currentTestToolName,
                         .obj [("count", .int m.testGroupCompletedCount),
                           ("results", .arr m.testGroupResults)]⟩ }], ?_, ?_⟩
            · rw [if_pos hid]
              simp [addMsg, hid]
            · intro cm hcm fr h
              simp at hcm
              subst hcm
              simp at h
              subst h
              exact ⟨rfl, hid⟩
          · rw [if_neg hid]
            exact ⟨[], by simp [addMsg, not_ne_iff.mp hid], by simp⟩
      | cons testMap rest =>
          exact ⟨[], by rw [handleRunNextTest_exec_history m outcome _ _ hq]; simp, by simp⟩
  | generateTestPlanResult testCases =>
      rw [updateM_generateTestPlanResult]
      unfold handleGenerateTestPlanResult
      by_cases hid : m.currentTestToolID ≠ ""
      · rw [if_pos (by by_cases hl : testCases.length > 0 <;> simp [hl, hid])]
        refine ⟨[{ role := "user",
                   functionResponse := some ⟨m.currentTestToolID, "GenerateTestPlan",
                     .obj [("status", .str "tests_generated"),
                       ("test_count", .int testCases.length),
                       ("test_cases", .arr (testCases.map .obj))]⟩ }], ?_, ?_⟩
        · dsimp only
          split_ifs <;> simp [addMsg]
        · intro cm hcm fr h
          simp at hcm
          subst hcm
          by_cases hl : testCases.length > 0
          · simp [hl] at h
            subst h
            exact ⟨rfl, hid⟩
          · simp [hl] at h
            subst h
            exact ⟨rfl, hid⟩
      · rw [if_neg (by by_cases hl : testCases.length > 0 <;> simp [hl, hid])]
        refine ⟨[], ?_, by simp⟩
        dsimp only
        split_ifs <;> simp [addMsg]
  | backendError e =>
      exact ⟨[], by rw [updateM_backendError]; simp [addMsg], by simp⟩

end CLI
end Octrafic

namespace Octrafic
namespace CLI

/-- Witness for `history_appends_carry_origin_id` at the concrete
late-result delivery of the traced run. -/
theorem history_appends_carry_origin_id_witness :
    carriedId cm13 lateResult = "t1" ∧ ("t1" : String) ≠ "" := by
  obtain ⟨Δ, hΔ, hfr⟩ := history_appends_carry_origin_id cm13 lateResult
  have hcat : cm13.conversationHistory ++
      [({ role := "user",
          functionResponse := some ⟨"t1", "get_endpoints_details",
            .obj [("endpoints", .arr [])]⟩ } : ChatMessage)] =
      cm13.conversationHistory ++ Δ := by
    rw [← hΔ]; rfl
  have hΔval : Δ = [{ role := "user",
                      functionResponse := some ⟨"t1", "get_endpoints_details",
                        .obj [("endpoints", .arr [])]⟩ }] :=
    (List.append_cancel_left hcat).symm
  have h := hfr _ (by rw [hΔval]; exact List.mem_singleton.mpr rfl)
    ⟨"t1", "get_endpoints_details", .obj [("endpoints", .arr [])]⟩ rfl
  exact ⟨h.1.symm, h.2⟩

theorem updateM_toolResult_none (m : Model) (toolName toolID : String) (result : JVal) :
    updateM m (.toolResult toolName toolID result none) =
      match (handleToolResult m toolName toolID result).2 with
      | some c =>
          ({ (handleToolResult m toolName toolID result).1 with agentState := .thinking }, c)
      | none =>
          ({ (handleToolResult m toolName toolID result).1 with agentState := .idle },
            .none) := rfl

/-- **C8, amended.** Pressing Esc in any non-`Idle` state immediately
drops to `Idle`, discards the current and pending tool calls and
reports `Operation cancelled` — that half of the claim holds.  But the
result of an in-flight request is *not* ignored after such a
cancellation: the `toolResultMsg` branch of `Update` has no state
guard, so a late result delivered in `Idle` still appends its
`FunctionResponse` to the history, re-enters `Thinking`, and re-calls
the provider. -/
theorem esc_cancels_but_late_result_processed :
    (∀ m : Model, m.agentState ≠ .idle →
      (updateM m .keyEsc).1.agentState = .idle ∧
      (updateM m .keyEsc).1.currentToolCall = none ∧
      (updateM m .keyEsc).1.pendingToolCall = none ∧
      "Operation cancelled" ∈ (updateM m .keyEsc).1.uiMessages ∧
      (updateM m .keyEsc).2 = .none) ∧
    (∀ (m : Model) (toolID : String) (fields : List (String × JVal)),
      toolID ≠ "" → m.agentState = .idle →
      (updateM m (.toolResult "get_endpoints_details" toolID (.obj fields)
          none)).1.conversationHistory =
        m.conversationHistory ++
          [{ role := "user",
             functionResponse := some ⟨toolID, "get_endpoints_details", .obj fields⟩ }] ∧
      (updateM m (.toolResult "get_endpoints_details" toolID (.obj fields)
          none)).1.agentState = .thinking ∧
      (updateM m (.toolResult "get_endpoints_details" toolID (.obj fields)
          none)).2 = .sendChat "") := by
  constructor
  · intro m h
    rw [updateM_keyEsc]
    unfold handleEsc
    rw [if_pos h]
    refine ⟨?_, ?_, ?_, ?_, ?_⟩ <;>
      first
        | rfl
        | (dsimp only; split_ifs <;> simp [addMsg])
  · intro m toolID fields hid hstate
    have hres : handleToolResult m "get_endpoints_details" toolID (.obj fields) =
        ({ m with conversationHistory := m.conversationHistory ++
            [{ role := "user",
               functionResponse := some ⟨toolID, "get_endpoints_details", .obj fields⟩ }] },
          some (.sendChat "")) := by
      unfold handleToolResult
      rw [if_neg (by decide), if_neg (by decide), if_pos rfl, if_pos hid]
    rw [updateM_toolResult_none, hres]
    exact ⟨rfl, rfl, rfl⟩

/-- Witness for `esc_cancels_but_late_result_processed` at the traced
run's cancellation point and late delivery. -/
theorem esc_cancels_but_late_result_processed_witness :
    (updateM cm7 .keyEsc).1.agentState = .idle ∧
    (updateM cm13 lateResult).1.agentState = .thinking := by
  have h := esc_cancels_but_late_result_processed
  refine ⟨(h.1 cm7 (by intro hc; exact absurd hc (by decide))).1, ?_⟩
  exact (h.2 cm13 "t1" [("endpoints", .arr [])] (by decide) rfl).2.1

/-- **C8, counterexample.** On the reachable run, after the Esc
cancellation has returned the model to `Idle` (with `Operation
cancelled` reported), the late arrival of the cancelled call's result
is not discarded: it grows the conversation history by one message and
moves the state to `Thinking`. -/
theorem c8_late_result_not_ignored_after_cancel :
    Reachable .noAuth ⟨cm13, [.executeTool tcD]⟩ ∧
    cm13.agentState = .idle ∧
    "Operation cancelled" ∈ cm13.uiMessages ∧
    (updateM cm13 lateResult).1.agentState = .thinking ∧
    (updateM cm13 lateResult).1.conversationHistory.length =
      cm13.conversationHistory.length + 1 := by
  refine ⟨reach13, rfl, ?_, rfl, rfl⟩
  decide

end CLI
end Octrafic

namespace Octrafic

/-- Witness for `runTCs_spec`: two frames split one argument string
across fragments at index 0. -/
theorem runTCs_spec_witness :
    ([⟨0, "id0", "fn", "ab"⟩, ⟨0, "", "", "cd"⟩] : List TCDelta).find?
        (fun d => d.index = 0) = some ⟨0, "id0", "fn", "ab"⟩ ∧
    (runTCs [⟨0, "id0", "fn", "ab"⟩, ⟨0, "", "", "cd"⟩] 0).map
        (resolveTC (fun s => some s)) =
      some { id := "id0", name := "fn", args := some "abcd" } := by
  refine ⟨by decide, ?_⟩
  have h := runTCs_spec (fun s => some s) [⟨0, "id0", "fn", "ab"⟩, ⟨0, "", "", "cd"⟩] 0
    ⟨0, "id0", "fn", "ab"⟩ (by decide)
  rw [h]
  rfl

/-- Witness for `bearer_validation_spec`: a whitespace-only token and a
real token. -/
theorem bearer_validation_spec_witness :
    goTrimSpace " ".toList = [] ∧
    bearerValidate " ".toList = some "bearer token cannot be empty".toList ∧
    goTrimSpace [Char.ofNat 0xA0] = [] ∧
    bearerValidate [Char.ofNat 0xA0] = some "bearer token cannot be empty".toList ∧
    goTrimSpace "tok".toList ≠ [] ∧
    bearerValidate "tok".toList = none := by
  have h1 := (bearer_validation_spec " ".toList).1 (by decide)
  have h3 := (bearer_validation_spec [Char.ofNat 0xA0]).1 (by decide)
  have h2 := (bearer_validation_spec "tok".toList).2 (by decide)
  exact ⟨by decide, h1.1, by decide, h3.1, by decide, h2.1⟩

end Octrafic

namespace Octrafic
namespace Filter

/-! ## C1: the inline `<think>` tag filter (`thinkTagFilter`)

`src/unnamed/part_014:553-646`.  The filter state is
`{insideThink, trimNext, buffer}`; `Process(chunk)` appends the chunk
to the buffer and loops: find a full tag (emit what precedes it,
switch sides), otherwise withhold a partial tag matched at the
buffer's tail and emit the rest, with a pending whitespace trim after
each `</think>`.  Emissions are collected as `(chunk, isThought)`
pairs in callback order. -/

def openTag : List Char := "<think>".toList

def closeTag : List Char := "</think>".toList

/-- The mutable fields of `thinkTagFilter` (the callback is modelled by
returning the emissions). -/
structure Core where
  insideThink : Bool
  trimNext : Bool
  buffer : List Char
  deriving Repr, DecidableEq

/-- One callback invocation: the emitted text and the `isThought` flag. -/
abbrev Emit := List Char × Bool

/-- `if s != "" { f.callback(s, flag) }`. -/
def emitIf (x : List Char) (flag : Bool) : List Emit :=
  if x = [] then [] else [(x, flag)]

/-- The partial-tag loop
`for i := 1; i < len(tag) && i <= len(buffer); i++ { if HasSuffix(buffer, tag[:i]) ... }`:
the smallest `i` whose tag prefix matches the buffer's tail. -/
def heldLen (tag l : List Char) (i : Nat) : Option Nat :=
  if h : i < tag.length ∧ i ≤ l.length then
    if goHasSuffix l (tag.take i) then some i
    else heldLen tag l (i + 1)
  else none
termination_by tag.length - i
decreasing_by
  have := h.1
  omega

/-- The `for { ... }` loop of `thinkTagFilter.Process`, started after
appending the incoming chunk to the buffer.  Returns the emissions of
this call and the quiescent state. -/
def run (c : Core) : List Emit × Core :=
  if c.insideThink then
    match hidx : goIndex closeTag c.buffer with
    | some idx =>
        let pre := emitIf (c.buffer.take idx) true
        let r := run ⟨false, true, c.buffer.drop (idx + closeTag.length)⟩
        (pre ++ r.1, r.2)
    | none =>
        match heldLen closeTag c.buffer 1 with
        | some i =>
            (emitIf (c.buffer.take (c.buffer.length - i)) true,
              ⟨true, c.trimNext, c.buffer.drop (c.buffer.length - i)⟩)
        | none => (emitIf c.buffer true, ⟨true, c.trimNext, []⟩)
  else
    let b := if c.trimNext then goTrimLeftWS c.buffer else c.buffer
    if c.trimNext ∧ b = [] then ([], ⟨false, true, []⟩)
    else
      match hidx : goIndex openTag b with
      | some idx =>
          let pre := emitIf (b.take idx) false
          let r := run ⟨true, false, b.drop (idx + openTag.length)⟩
          (pre ++ r.1, r.2)
      | none =>
          match heldLen openTag b 1 with
          | some i =>
              (emitIf (b.take (b.length - i)) false,
                ⟨false, false, b.drop (b.length - i)⟩)
          | none => (emitIf b false, ⟨false, false, []⟩)
termination_by c.buffer.length
decreasing_by
  · have h8 : idx + closeTag.length ≤ c.buffer.length :=
      goIndex_some_le (by decide) hidx
    have hc : closeTag.length = 8 := by decide
    show (c.buffer.drop (idx + closeTag.length)).length < c.buffer.length
    simp only [List.length_drop]
    omega
  · have h7 : idx + openTag.length ≤ b.length := goIndex_some_le (by decide) hidx
    have hble : b.length ≤ c.buffer.length := by
      unfold_let b
      by_cases htn : c.trimNext
      · simpa [htn, goTrimLeftWS] using (List.dropWhile_sublist _).length_le
      · simp [htn]
    have ho : openTag.length = 7 := by decide
    show (b.drop (idx + openTag.length)).length < c.buffer.length
    simp only [List.length_drop]
    omega

/-- `thinkTagFilter.Process(chunk)`: `f.buffer += chunk` then the loop. -/
def process (c : Core) (chunk : List Char) : List Emit × Core :=
  run ⟨c.insideThink, c.trimNext, c.buffer ++ chunk⟩

/-- `thinkTagFilter.Flush`. -/
def flush (c : Core) : List Emit :=
  if c.buffer = [] then [] else [(c.buffer, c.insideThink)]

/-- The filter's initial state (Go zero values). -/
def initCore : Core := ⟨false, false, []⟩

/-- Concatenated visible content of an emission list (`isThought = false`). -/
def outC (es : List Emit) : List Char :=
  (es.filter (fun e => e.2 = false)).map (·.1) |>.join

/-- Concatenated reasoning of an emission list (`isThought = true`). -/
def outR (es : List Emit) : List Char :=
  (es.filter (fun e => e.2 = true)).map (·.1) |>.join

/-- Processing a list of chunks in order, accumulating emissions. -/
def procAll (c : Core) : List (List Char) → List Emit × Core
  | [] => ([], c)
  | ch :: rest =>
      let r := process c ch
      let r' := procAll r.2 rest
      (r.1 ++ r'.1, r'.2)

/-- A partial-tag suffix match of length `i`. -/
def sufM (tag l : List Char) (i : Nat) : Prop :=
  i < tag.length ∧ i ≤ l.length ∧ goHasSuffix l (tag.take i) = true

instance (tag l : List Char) (i : Nat) : Decidable (sufM tag l i) := by
  unfold sufM
  infer_instance

theorem heldLen_none_iff {tag l : List Char} (i₀ : Nat) :
    heldLen tag l i₀ = none ↔ ∀ j, i₀ ≤ j → ¬ sufM tag l j := by
  have key : ∀ n i₀, tag.length - i₀ ≤ n →
      (heldLen tag l i₀ = none ↔ ∀ j, i₀ ≤ j → ¬ sufM tag l j) := by
    intro n
    induction n with
    | zero =>
        intro i₀ hn
        unfold heldLen
        have hbig : tag.length ≤ i₀ := by omega
        rw [dif_neg (by omega)]
        simp only [true_iff]
        intro j hj hs
        exact absurd hs.1 (by omega)
    | succ n ih =>
        intro i₀ hn
        unfold heldLen
        by_cases hc : i₀ < tag.length ∧ i₀ ≤ l.length
        · rw [dif_pos hc]
          by_cases hs : goHasSuffix l (tag.take i₀) = true
          · rw [if_pos hs]
            exact iff_of_false (by simp)
              (fun hall => (hall i₀ le_rfl) ⟨hc.1, hc.2, hs⟩)
          · rw [if_neg hs]
            rw [ih (i₀ + 1) (by omega)]
            constructor
            · intro hall j hj
              rcases Nat.eq_or_lt_of_le hj with rfl | hlt
              · exact fun hm => hs hm.2.2
              · exact hall j hlt
            · intro hall j hj
              exact hall j (by omega)
        · rw [dif_neg hc]
          simp only [true_iff]
          intro j hj hm
          rcases not_and_or.mp hc with h1 | h2
          · exact absurd hm.1 (by omega)
          · exact absurd hm.2.1 (by omega)
  exact key (tag.length - i₀) i₀ le_rfl

theorem heldLen_some_facts {tag l : List Char} {i₀ i : Nat}
    (h : heldLen tag l i₀ = some i) :
    i₀ ≤ i ∧ sufM tag l i ∧ ∀ j, i₀ ≤ j → j < i → ¬ sufM tag l j := by
  have key : ∀ n i₀, tag.length - i₀ ≤ n → heldLen tag l i₀ = some i →
      i₀ ≤ i ∧ sufM tag l i ∧ ∀ j, i₀ ≤ j → j < i → ¬ sufM tag l j := by
    intro n
    induction n with
    | zero =>
        intro i₀ hn h
        unfold heldLen at h
        rw [dif_neg (by omega)] at h
        exact absurd h (by simp)
    | succ n ih =>
        intro i₀ hn h
        unfold heldLen at h
        by_cases hc : i₀ < tag.length ∧ i₀ ≤ l.length
        · rw [dif_pos hc] at h
          by_cases hs : goHasSuffix l (tag.take i₀) = true
          · rw [if_pos hs] at h
            have : i₀ = i := by simpa using h
            subst this
            exact ⟨le_rfl, ⟨hc.1, hc.2, hs⟩, fun j hj hlt => by omega⟩
          · rw [if_neg hs] at h
            obtain ⟨h1, h2, h3⟩ := ih (i₀ + 1) (by omega) h
            refine ⟨by omega, h2, ?_⟩
            intro j hj hlt
            rcases Nat.eq_or_lt_of_le hj with rfl | hgt
            · exact fun hm => hs hm.2.2
            · exact h3 j hgt hlt
        · rw [dif_neg hc] at h
          exact absurd h (by simp)
  exact key (tag.length - i₀) i₀ le_rfl h

theorem heldLen_eq_some_of {tag l : List Char} {i₀ i : Nat}
    (h1 : i₀ ≤ i) (h2 : sufM tag l i)
    (h3 : ∀ j, i₀ ≤ j → j < i → ¬ sufM tag l j) :
    heldLen tag l i₀ = some i := by
  cases hh : heldLen tag l i₀ with
  | none => exact absurd h2 ((heldLen_none_iff i₀).mp hh i h1)
  | some k =>
      obtain ⟨hk1, hk2, hk3⟩ := heldLen_some_facts hh
      rcases lt_trichotomy k i with hlt | heq | hgt
      · exact absurd hk2 (h3 k hk1 hlt)
      · rw [heq]
      · exact absurd h2 (hk3 i h1 hgt)

/-- The tags have no internal border: no nonempty proper prefix is a suffix
of a longer proper prefix (because `<` occurs only at position 0). -/
def noBorderP (tag : List Char) : Prop :=
  ∀ i₂, i₂ < tag.length → ∀ i₁, i₁ < i₂ → 1 ≤ i₁ →
    ¬ ((tag.take i₁).isSuffixOf (tag.take i₂) = true)

instance (tag : List Char) : Decidable (noBorderP tag) := by
  unfold noBorderP
  infer_instance

theorem noBorder_open : noBorderP openTag := by decide

theorem noBorder_close : noBorderP closeTag := by decide

theorem length_take_of_le {l : List Char} {i : Nat} (h : i ≤ l.length) :
    (l.take i).length = i := by
  simp [Nat.min_eq_left h]

theorem sufM_unique {tag l : List Char} (hnb : noBorderP tag) {i j : Nat}
    (h1 : 1 ≤ i) (h2 : 1 ≤ j) (hi : sufM tag l i) (hj : sufM tag l j) : i = j := by
  have key : ∀ a b, 1 ≤ a → sufM tag l a → sufM tag l b → a < b → False := by
    intro a b ha hma hmb hab
    have hsa : (tag.take a) <:+ l := List.isSuffixOf_iff_suffix.mp hma.2.2
    have hsb : (tag.take b) <:+ l := List.isSuffixOf_iff_suffix.mp hmb.2.2
    have hla : (tag.take a).length = a := length_take_of_le (le_of_lt hma.1)
    have hlb : (tag.take b).length = b := length_take_of_le (le_of_lt hmb.1)
    have hsub : (tag.take a) <:+ (tag.take b) :=
      List.suffix_of_suffix_length_le hsa hsb (by rw [hla, hlb]; omega)
    exact hnb b hmb.1 a hab ha (List.isSuffixOf_iff_suffix.mpr hsub)
  rcases lt_trichotomy i j with h | h | h
  · exact absurd (key i j h1 hi hj h) not_false
  · exact h
  · exact absurd (key j i h2 hj hi h) not_false

theorem drop_append_of_le {b e : List Char} {j : Nat} (h : j ≤ b.length) :
    (b ++ e).drop j = b.drop j ++ e := by
  rw [List.drop_append_eq_append_drop]
  congr 1
  rw [Nat.sub_eq_zero_of_le h, List.drop_zero]

theorem drop_append_of_ge {b e : List Char} {j : Nat} (h : b.length ≤ j) :
    (b ++ e).drop j = e.drop (j - b.length) := by
  rw [List.drop_append_eq_append_drop, List.drop_eq_nil_of_le h, List.nil_append]

theorem occ_up {pat b e : List Char} {j : Nat}
    (hocc : pat.isPrefixOf (b.drop j) = true) (hj : j ≤ b.length) :
    pat.isPrefixOf ((b ++ e).drop j) = true := by
  rw [drop_append_of_le hj]
  exact List.isPrefixOf_iff_prefix.mpr
    ((List.isPrefixOf_iff_prefix.mp hocc).trans (List.prefix_append _ _))

theorem occ_down {pat b e : List Char} {j : Nat}
    (hocc : pat.isPrefixOf ((b ++ e).drop j) = true)
    (hj : j + pat.length ≤ b.length) :
    pat.isPrefixOf (b.drop j) = true := by
  rw [drop_append_of_le (by omega)] at hocc
  refine List.isPrefixOf_iff_prefix.mpr
    (List.prefix_of_prefix_length_le (List.isPrefixOf_iff_prefix.mp hocc)
      (List.prefix_append _ _) ?_)
  rw [List.length_drop]
  omega

/-- A full-tag occurrence crossing the right end of `b` induces a partial-tag
suffix match of `b`. -/
theorem occ_span_sufM {pat b e : List Char} {j : Nat}
    (hocc : pat.isPrefixOf ((b ++ e).drop j) = true)
    (hj : j < b.length) (hcross : b.length < j + pat.length) :
    sufM pat b (b.length - j) := by
  have hple : pat = ((b.drop j) ++ e).take pat.length := by
    rw [← drop_append_of_le (le_of_lt hj)]
    exact List.prefix_iff_eq_take.mp (List.isPrefixOf_iff_prefix.mp hocc)
  have hkey : pat.take (b.length - j) = b.drop j := by
    rw [hple, List.take_take, Nat.min_eq_left (by omega)]
    exact List.take_left' (by rw [List.length_drop])
  refine ⟨by omega, by omega, ?_⟩
  show (pat.take (b.length - j)).isSuffixOf b = true
  rw [hkey]
  exact List.isSuffixOf_iff_suffix.mpr (List.drop_suffix _ _)

/-- A partial-tag suffix match of `b ++ e` longer than `e` induces a
partial-tag suffix match of `b`. -/
theorem sufM_span {tag b e : List Char} {s : Nat}
    (hm : sufM tag (b ++ e) s) (hgt : e.length < s) :
    sufM tag b (s - e.length) := by
  obtain ⟨hs1, hs2, hs3⟩ := hm
  rw [List.length_append] at hs2
  have hlen : (tag.take s).length = s := length_take_of_le (le_of_lt hs1)
  have heq : tag.take s = (b ++ e).drop (b.length + e.length - s) := by
    have := List.suffix_iff_eq_drop.mp (List.isSuffixOf_iff_suffix.mp hs3)
    rwa [hlen, List.length_append] at this
  have hdec : (b ++ e).drop (b.length + e.length - s)
      = b.drop (b.length - (s - e.length)) ++ e := by
    rw [show b.length + e.length - s = b.length - (s - e.length) by omega]
    exact drop_append_of_le (by omega)
  have hkey : tag.take (s - e.length) = b.drop (b.length - (s - e.length)) := by
    have : (tag.take s).take (s - e.length)
        = b.drop (b.length - (s - e.length)) := by
      rw [heq, hdec]
      exact List.take_left' (by rw [List.length_drop]; omega)
    rwa [List.take_take, Nat.min_eq_left (by omega)] at this
  refine ⟨by omega, by omega, ?_⟩
  show (tag.take (s - e.length)).isSuffixOf b = true
  rw [hkey]
  exact List.isSuffixOf_iff_suffix.mpr (List.drop_suffix _ _)

/-- A partial-tag suffix match of `p ++ q` no longer than `q` is a suffix
match of `q`, and conversely. -/
theorem sufM_down {tag p q : List Char} {s : Nat}
    (hm : sufM tag (p ++ q) s) (hle : s ≤ q.length) : sufM tag q s := by
  obtain ⟨hs1, hs2, hs3⟩ := hm
  refine ⟨hs1, hle, ?_⟩
  show (tag.take s).isSuffixOf q = true
  refine List.isSuffixOf_iff_suffix.mpr
    (List.suffix_of_suffix_length_le (List.isSuffixOf_iff_suffix.mp hs3)
      (List.suffix_append _ _) ?_)
  rw [length_take_of_le (le_of_lt hs1)]
  exact hle

theorem sufM_up {tag p q : List Char} {s : Nat} (hm : sufM tag q s) :
    sufM tag (p ++ q) s := by
  obtain ⟨hs1, hs2, hs3⟩ := hm
  refine ⟨hs1, by rw [List.length_append]; omega, ?_⟩
  show (tag.take s).isSuffixOf (p ++ q) = true
  exact List.isSuffixOf_iff_suffix.mpr
    ((List.isSuffixOf_iff_suffix.mp hs3).trans (List.suffix_append _ _))

theorem goIndex_eq_none_of {pat l : List Char}
    (h : ∀ j, ¬ pat.isPrefixOf (l.drop j) = true) : goIndex pat l = none := by
  cases hgi : goIndex pat l with
  | none => rfl
  | some k => exact absurd (goIndex_some_isPrefixOf hgi) (h k)

/-- If the pattern cannot occur strictly inside `p`, searching `p ++ q`
is searching `q` shifted by `p.length`. -/
theorem goIndex_append_shift {pat p q : List Char}
    (hno : ∀ j, j < p.length → ¬ pat.isPrefixOf ((p ++ q).drop j) = true) :
    goIndex pat (p ++ q) = (goIndex pat q).map (fun k => p.length + k) := by
  cases hq : goIndex pat q with
  | none =>
      show goIndex pat (p ++ q) = none
      refine goIndex_eq_none_of (fun j hocc => ?_)
      by_cases hj : j < p.length
      · exact hno j hj hocc
      · have : (p ++ q).drop j = q.drop (j - p.length) :=
          drop_append_of_ge (by omega)
        rw [this] at hocc
        exact goIndex_none hq (j - p.length) hocc
  | some k =>
      show goIndex pat (p ++ q) = some (p.length + k)
      refine goIndex_eq_some_of ?_ ?_
      · rw [show (p ++ q).drop (p.length + k) = q.drop k by
          rw [drop_append_of_ge (by omega)]; congr 1; omega]
        exact goIndex_some_isPrefixOf hq
      · intro j hj hocc
        by_cases hjp : j < p.length
        · exact hno j hjp hocc
        · rw [drop_append_of_ge (by omega)] at hocc
          exact goIndex_some_min hq (j - p.length) (by omega) hocc

theorem heldLen_congr_of_iff {tag l₁ l₂ : List Char}
    (h : ∀ j, 1 ≤ j → (sufM tag l₁ j ↔ sufM tag l₂ j)) :
    heldLen tag l₁ 1 = heldLen tag l₂ 1 := by
  cases h1 : heldLen tag l₁ 1 with
  | none =>
      symm
      rw [heldLen_none_iff]
      intro j hj hm
      exact (heldLen_none_iff 1).mp h1 j hj ((h j hj).mpr hm)
  | some i =>
      obtain ⟨hi1, hi2, hi3⟩ := heldLen_some_facts h1
      symm
      exact heldLen_eq_some_of hi1 ((h i hi1).mp hi2)
        (fun j hj hlt hm => hi3 j hj hlt ((h j hj).mpr hm))

theorem runI_found {tn : Bool} {b : List Char} {idx : Nat}
    (h : goIndex closeTag b = some idx) :
    run ⟨true, tn, b⟩ =
      (emitIf (b.take idx) true ++ (run ⟨false, true, b.drop (idx + closeTag.length)⟩).1,
       (run ⟨false, true, b.drop (idx + closeTag.length)⟩).2) := by
  conv_lhs => rw [run]
  simp only [if_pos]
  split
  · next idx2 heq =>
      rw [h] at heq
      cases heq
      rfl
  · next heq => rw [h] at heq; cases heq

theorem runI_heldSome {tn : Bool} {b : List Char} {i : Nat}
    (h : goIndex closeTag b = none) (hh : heldLen closeTag b 1 = some i) :
    run ⟨true, tn, b⟩ =
      (emitIf (b.take (b.length - i)) true, ⟨true, tn, b.drop (b.length - i)⟩) := by
  conv_lhs => rw [run]
  simp only [if_pos]
  split
  · next idx2 heq => rw [h] at heq; cases heq
  · next heq =>
      rw [hh]

theorem runI_heldNone {tn : Bool} {b : List Char}
    (h : goIndex closeTag b = none) (hh : heldLen closeTag b 1 = none) :
    run ⟨true, tn, b⟩ = (emitIf b true, ⟨true, tn, []⟩) := by
  conv_lhs => rw [run]
  simp only [if_pos]
  split
  · next idx2 heq => rw [h] at heq; cases heq
  · next heq =>
      rw [hh]

theorem runC_trimExit {x : List Char} (h : goTrimLeftWS x = []) :
    run ⟨false, true, x⟩ = ([], ⟨false, true, []⟩) := by
  conv_lhs => rw [run]
  simp [h]

theorem runC_trimStep {x : List Char} (h : ¬ goTrimLeftWS x = []) :
    run ⟨false, true, x⟩ = run ⟨false, false, goTrimLeftWS x⟩ := by
  conv_lhs => rw [run]
  conv_rhs => rw [run]
  simp [h]

theorem runC_found {b : List Char} {idx : Nat}
    (h : goIndex openTag b = some idx) :
    run ⟨false, false, b⟩ =
      (emitIf (b.take idx) false ++ (run ⟨true, false, b.drop (idx + openTag.length)⟩).1,
       (run ⟨true, false, b.drop (idx + openTag.length)⟩).2) := by
  conv_lhs => rw [run]
  simp only [Bool.false_eq_true, if_false, false_and, reduceIte]
  split
  · next idx2 heq => simp only [Bool.false_eq_true, if_false, reduceIte] at heq; rw [h] at heq; cases heq; rfl
  · next heq => simp only [Bool.false_eq_true, if_false, reduceIte] at heq; rw [h] at heq; cases heq

theorem runC_heldSome {b : List Char} {i : Nat}
    (h : goIndex openTag b = none) (hh : heldLen openTag b 1 = some i) :
    run ⟨false, false, b⟩ =
      (emitIf (b.take (b.length - i)) false, ⟨false, false, b.drop (b.length - i)⟩) := by
  conv_lhs => rw [run]
  simp only [Bool.false_eq_true, if_false, false_and, reduceIte]
  split
  · next idx2 heq => simp only [Bool.false_eq_true, if_false, reduceIte] at heq; rw [h] at heq; cases heq
  · next heq => rw [hh]

theorem runC_heldNone {b : List Char}
    (h : goIndex openTag b = none) (hh : heldLen openTag b 1 = none) :
    run ⟨false, false, b⟩ = (emitIf b false, ⟨false, false, []⟩) := by
  conv_lhs => rw [run]
  simp only [Bool.false_eq_true, if_false, false_and, reduceIte]
  split
  · next idx2 heq => simp only [Bool.false_eq_true, if_false, reduceIte] at heq; rw [h] at heq; cases heq
  · next heq => rw [hh]

theorem outC_nil : outC [] = [] := rfl

theorem outR_nil : outR [] = [] := rfl

theorem outC_append (es fs : List Emit) : outC (es ++ fs) = outC es ++ outC fs := by
  simp [outC]

theorem outR_append (es fs : List Emit) : outR (es ++ fs) = outR es ++ outR fs := by
  simp [outR]

theorem outC_emitIf_true (x : List Char) : outC (emitIf x true) = [] := by
  unfold emitIf
  split <;> simp [outC]

theorem outC_emitIf_false (x : List Char) : outC (emitIf x false) = x := by
  unfold emitIf
  split
  · next h => simp [outC, h]
  · simp [outC]

theorem outR_emitIf_true (x : List Char) : outR (emitIf x true) = x := by
  unfold emitIf
  split
  · next h => simp [outR, h]
  · simp [outR]

theorem outR_emitIf_false (x : List Char) : outR (emitIf x false) = [] := by
  unfold emitIf
  split <;> simp [outR]

theorem take_append_shift {p q : List Char} {k : Nat} :
    (p ++ q).take (p.length + k) = p ++ q.take k := by
  rw [List.take_append_eq_append_take]
  congr 1
  · exact List.take_of_length_le (by omega)
  · congr 1
    omega

theorem drop_append_shift {p q : List Char} {k : Nat} :
    (p ++ q).drop (p.length + k) = q.drop k := by
  rw [drop_append_of_ge (by omega)]
  congr 1
  omega

/-- Emissions while inside a think block carry an untouched chunk `p` of
settled reasoning in front: the run on `p ++ q` is the run on `q` with `p`
prepended to the reasoning output, provided no close tag or partial close
tag reaches into `p`. -/
theorem shift_inside {tn : Bool} (p q : List Char)
    (hocc : ∀ j, j < p.length → ¬ closeTag.isPrefixOf ((p ++ q).drop j) = true)
    (hsuf : ∀ s, 1 ≤ s → sufM closeTag (p ++ q) s → s ≤ q.length) :
    (run ⟨true, tn, p ++ q⟩).2 = (run ⟨true, tn, q⟩).2 ∧
    outR (run ⟨true, tn, p ++ q⟩).1 = p ++ outR (run ⟨true, tn, q⟩).1 ∧
    outC (run ⟨true, tn, p ++ q⟩).1 = outC (run ⟨true, tn, q⟩).1 := by
  have hshift := @goIndex_append_shift closeTag p q hocc
  cases hq : goIndex closeTag q with
  | some k =>
      rw [hq] at hshift
      rw [runI_found hshift, runI_found hq, take_append_shift,
        show p.length + k + closeTag.length = p.length + (k + closeTag.length) by omega,
        drop_append_shift]
      refine ⟨rfl, ?_, ?_⟩
      · rw [outR_append, outR_append, outR_emitIf_true, outR_emitIf_true,
          List.append_assoc]
      · rw [outC_append, outC_append, outC_emitIf_true, outC_emitIf_true]
  | none =>
      rw [hq] at hshift
      have hPnone : goIndex closeTag (p ++ q) = none := by
        rw [hshift]; rfl
      have hiff : ∀ j, 1 ≤ j → (sufM closeTag (p ++ q) j ↔ sufM closeTag q j) := by
        intro j hj
        exact ⟨fun hm => sufM_down hm (hsuf j hj hm), fun hm => sufM_up hm⟩
      have hheld : heldLen closeTag (p ++ q) 1 = heldLen closeTag q 1 :=
        heldLen_congr_of_iff hiff
      cases hhq : heldLen closeTag q 1 with
      | some i =>
          rw [hhq] at hheld
          rw [runI_heldSome hPnone hheld, runI_heldSome hq hhq]
          have hile : i ≤ q.length := (heldLen_some_facts hhq).2.1.2.1
          rw [show (p ++ q).length - i = p.length + (q.length - i) by
              rw [List.length_append]; omega,
            take_append_shift, drop_append_shift]
          exact ⟨rfl, by rw [outR_emitIf_true, outR_emitIf_true],
            by rw [outC_emitIf_true, outC_emitIf_true]⟩
      | none =>
          rw [hhq] at hheld
          rw [runI_heldNone hPnone hheld, runI_heldNone hq hhq]
          exact ⟨rfl, by rw [outR_emitIf_true, outR_emitIf_true],
            by rw [outC_emitIf_true, outC_emitIf_true]⟩

/-- The content-side counterpart of `shift_inside`. -/
theorem shift_content (p q : List Char)
    (hocc : ∀ j, j < p.length → ¬ openTag.isPrefixOf ((p ++ q).drop j) = true)
    (hsuf : ∀ s, 1 ≤ s → sufM openTag (p ++ q) s → s ≤ q.length) :
    (run ⟨false, false, p ++ q⟩).2 = (run ⟨false, false, q⟩).2 ∧
    outC (run ⟨false, false, p ++ q⟩).1 = p ++ outC (run ⟨false, false, q⟩).1 ∧
    outR (run ⟨false, false, p ++ q⟩).1 = outR (run ⟨false, false, q⟩).1 := by
  have hshift := @goIndex_append_shift openTag p q hocc
  cases hq : goIndex openTag q with
  | some k =>
      rw [hq] at hshift
      rw [runC_found hshift, runC_found hq, take_append_shift,
        show p.length + k + openTag.length = p.length + (k + openTag.length) by omega,
        drop_append_shift]
      refine ⟨rfl, ?_, ?_⟩
      · rw [outC_append, outC_append, outC_emitIf_false, outC_emitIf_false,
          List.append_assoc]
      · rw [outR_append, outR_append, outR_emitIf_false, outR_emitIf_false]
  | none =>
      rw [hq] at hshift
      have hPnone : goIndex openTag (p ++ q) = none := by
        rw [hshift]; rfl
      have hiff : ∀ j, 1 ≤ j → (sufM openTag (p ++ q) j ↔ sufM openTag q j) := by
        intro j hj
        exact ⟨fun hm => sufM_down hm (hsuf j hj hm), fun hm => sufM_up hm⟩
      have hheld : heldLen openTag (p ++ q) 1 = heldLen openTag q 1 :=
        heldLen_congr_of_iff hiff
      cases hhq : heldLen openTag q 1 with
      | some i =>
          rw [hhq] at hheld
          rw [runC_heldSome hPnone hheld, runC_heldSome hq hhq]
          have hile : i ≤ q.length := (heldLen_some_facts hhq).2.1.2.1
          rw [show (p ++ q).length - i = p.length + (q.length - i) by
              rw [List.length_append]; omega,
            take_append_shift, drop_append_shift]
          exact ⟨rfl, by rw [outC_emitIf_false, outC_emitIf_false],
            by rw [outR_emitIf_false, outR_emitIf_false]⟩
      | none =>
          rw [hhq] at hheld
          rw [runC_heldNone hPnone hheld, runC_heldNone hq hhq]
          exact ⟨rfl, by rw [outC_emitIf_false, outC_emitIf_false],
            by rw [outR_emitIf_false, outR_emitIf_false]⟩

/-- A filter state with its buffer extended on the right. -/
def extendS (s : Core) (e : List Char) : Core :=
  ⟨s.insideThink, s.trimNext, s.buffer ++ e⟩

theorem trimWS_append_of_nil {b e : List Char} (h : goTrimLeftWS b = []) :
    goTrimLeftWS (b ++ e) = goTrimLeftWS e := by
  unfold goTrimLeftWS at *
  rw [List.dropWhile_append, h]
  rfl

theorem trimWS_append_of_ne {b e : List Char} (h : ¬ goTrimLeftWS b = []) :
    goTrimLeftWS (b ++ e) = goTrimLeftWS b ++ e := by
  unfold goTrimLeftWS at *
  rw [List.dropWhile_append]
  rw [if_neg (by simpa [List.isEmpty_iff] using h)]

/-- The one-step decomposition: running the filter loop on an extended
buffer `b ++ e` equals running it on `b` and then running the reached
state with `e` appended, up to regrouping of the emitted strings. -/
theorem run_append_key : ∀ k : Nat, ∀ (flag tn : Bool) (b e : List Char),
    b.length + (if flag = false ∧ tn = true then 1 else 0) ≤ k →
    (run (extendS (run ⟨flag, tn, b⟩).2 e)).2 = (run ⟨flag, tn, b ++ e⟩).2 ∧
    outC (run ⟨flag, tn, b ++ e⟩).1 =
      outC (run ⟨flag, tn, b⟩).1 ++ outC (run (extendS (run ⟨flag, tn, b⟩).2 e)).1 ∧
    outR (run ⟨flag, tn, b ++ e⟩).1 =
      outR (run ⟨flag, tn, b⟩).1 ++ outR (run (extendS (run ⟨flag, tn, b⟩).2 e)).1 := by
  intro k
  induction k using Nat.strong_induction_on with
  | _ k ih =>
  intro flag tn b e hk
  cases flag with
  | true =>
    rw [if_neg (by simp)] at hk
    cases hgi : goIndex closeTag b with
    | some idx =>
        have hb8 : idx + closeTag.length ≤ b.length := goIndex_some_le (by decide) hgi
        have hcl : closeTag.length = 8 := by decide
        have hup : closeTag.isPrefixOf ((b ++ e).drop idx) = true :=
          occ_up (goIndex_some_isPrefixOf hgi) (by omega)
        have hmin : ∀ j < idx, ¬ closeTag.isPrefixOf ((b ++ e).drop j) = true := by
          intro j hj hocc
          exact goIndex_some_min hgi j hj (occ_down hocc (by omega))
        have hgiP : goIndex closeTag (b ++ e) = some idx := goIndex_eq_some_of hup hmin
        rw [runI_found hgiP, runI_found hgi,
          List.take_append_of_le_length (by omega), drop_append_of_le (by omega)]
        dsimp only
        have hrec := ih ((b.drop (idx + closeTag.length)).length + 1)
          (by rw [List.length_drop]; omega) false true (b.drop (idx + closeTag.length)) e
          (by rw [if_pos ⟨rfl, rfl⟩])
        refine ⟨hrec.1, ?_, ?_⟩
        · rw [outC_append, outC_append, hrec.2.1, List.append_assoc]
        · rw [outR_append, outR_append, hrec.2.2, List.append_assoc]
    | none =>
        cases hh : heldLen closeTag b 1 with
        | some i =>
            obtain ⟨hi1, ⟨hib1, hib2, hib3⟩, hmin⟩ := heldLen_some_facts hh
            have hcl : closeTag.length = 8 := by decide
            have hpd : b.take (b.length - i) ++ (b.drop (b.length - i) ++ e) = b ++ e := by
              rw [← List.append_assoc, List.take_append_drop]
            have hplen : (b.take (b.length - i)).length = b.length - i :=
              length_take_of_le (by omega)
            have hhlen : (b.drop (b.length - i)).length = i := by
              rw [List.length_drop]; omega
            have hocc : ∀ j, j < (b.take (b.length - i)).length →
                ¬ closeTag.isPrefixOf
                  ((b.take (b.length - i) ++ (b.drop (b.length - i) ++ e)).drop j) = true := by
              rw [hpd, hplen]
              intro j hj hocc
              by_cases hj8 : j + closeTag.length ≤ b.length
              · exact goIndex_none hgi j (occ_down hocc hj8)
              · have hspan := occ_span_sufM hocc (by omega) (by omega)
                have := sufM_unique noBorder_close (by omega) (by omega)
                  ⟨hib1, hib2, hib3⟩ hspan
                omega
            have hsuf : ∀ s, 1 ≤ s →
                sufM closeTag (b.take (b.length - i) ++ (b.drop (b.length - i) ++ e)) s →
                s ≤ (b.drop (b.length - i) ++ e).length := by
              rw [hpd, List.length_append, hhlen]
              intro s hs hm
              by_contra hgt
              have hsp := sufM_span hm (by omega)
              have := sufM_unique noBorder_close (by omega) (by omega)
                ⟨hib1, hib2, hib3⟩ hsp
              omega
            have hsh := @shift_inside tn _ _ hocc hsuf
            rw [hpd] at hsh
            rw [runI_heldSome hgi hh]
            dsimp only [extendS]
            exact ⟨hsh.1.symm,
              by rw [hsh.2.2, outC_emitIf_true, List.nil_append],
              by rw [hsh.2.1, outR_emitIf_true]⟩
        | none =>
            have hcl : closeTag.length = 8 := by decide
            have hnone := (@heldLen_none_iff closeTag b 1).mp hh
            have hocc : ∀ j, j < b.length →
                ¬ closeTag.isPrefixOf ((b ++ e).drop j) = true := by
              intro j hj hocc
              by_cases hj8 : j + closeTag.length ≤ b.length
              · exact goIndex_none hgi j (occ_down hocc hj8)
              · have hspan := occ_span_sufM hocc (by omega) (by omega)
                exact hnone (b.length - j) (by omega) hspan
            have hsuf : ∀ s, 1 ≤ s → sufM closeTag (b ++ e) s → s ≤ e.length := by
              intro s hs hm
              by_contra hgt
              exact hnone (s - e.length) (by omega) (sufM_span hm (by omega))
            have hsh := @shift_inside tn _ _ hocc hsuf
            rw [runI_heldNone hgi hh]
            dsimp only [extendS]
            rw [List.nil_append]
            exact ⟨hsh.1.symm,
              by rw [hsh.2.2, outC_emitIf_true, List.nil_append],
              by rw [hsh.2.1, outR_emitIf_true]⟩
  | false =>
    cases tn with
    | true =>
      rw [if_pos ⟨rfl, rfl⟩] at hk
      by_cases htr : goTrimLeftWS b = []
      · have htrBE := @trimWS_append_of_nil b e htr
        rw [runC_trimExit htr]
        dsimp only [extendS]
        rw [List.nil_append]
        by_cases htre : goTrimLeftWS e = []
        · rw [runC_trimExit (htrBE.trans htre), runC_trimExit htre]
          exact ⟨rfl, by simp [outC_nil], by simp [outR_nil]⟩
        · rw [runC_trimStep (fun hc => htre (htrBE.symm.trans hc)),
            runC_trimStep htre, htrBE]
          exact ⟨rfl, by simp [outC_nil], by simp [outR_nil]⟩
      · have htrBE := @trimWS_append_of_ne b e htr
        have hlen : (goTrimLeftWS b).length ≤ b.length := by
          unfold goTrimLeftWS
          exact (List.dropWhile_sublist _).length_le
        rw [runC_trimStep htr,
          @runC_trimStep (b ++ e) (by rw [htrBE]; simp [htr]), htrBE]
        exact ih (goTrimLeftWS b).length (by omega) false false (goTrimLeftWS b) e
          (by rw [if_neg (by simp)]; omega)
    | false =>
      rw [if_neg (by simp)] at hk
      cases hgi : goIndex openTag b with
      | some idx =>
          have hb7 : idx + openTag.length ≤ b.length := goIndex_some_le (by decide) hgi
          have hol : openTag.length = 7 := by decide
          have hup : openTag.isPrefixOf ((b ++ e).drop idx) = true :=
            occ_up (goIndex_some_isPrefixOf hgi) (by omega)
          have hmin : ∀ j < idx, ¬ openTag.isPrefixOf ((b ++ e).drop j) = true := by
            intro j hj hocc
            exact goIndex_some_min hgi j hj (occ_down hocc (by omega))
          have hgiP : goIndex openTag (b ++ e) = some idx := goIndex_eq_some_of hup hmin
          rw [runC_found hgiP, runC_found hgi,
            List.take_append_of_le_length (by omega), drop_append_of_le (by omega)]
          dsimp only
          have hrec := ih ((b.drop (idx + openTag.length)).length + 1)
            (by rw [List.length_drop]; omega) true false (b.drop (idx + openTag.length)) e
            (by rw [if_neg (by simp)]; omega)
          refine ⟨hrec.1, ?_, ?_⟩
          · rw [outC_append, outC_append, hrec.2.1, List.append_assoc]
          · rw [outR_append, outR_append, hrec.2.2, List.append_assoc]
      | none =>
          cases hh : heldLen openTag b 1 with
          | some i =>
              obtain ⟨hi1, ⟨hib1, hib2, hib3⟩, hmin⟩ := heldLen_some_facts hh
              have hol : openTag.length = 7 := by decide
              have hpd : b.take (b.length - i) ++ (b.drop (b.length - i) ++ e) = b ++ e := by
                rw [← List.append_assoc, List.take_append_drop]
              have hplen : (b.take (b.length - i)).length = b.length - i :=
                length_take_of_le (by omega)
              have hhlen : (b.drop (b.length - i)).length = i := by
                rw [List.length_drop]; omega
              have hocc : ∀ j, j < (b.take (b.length - i)).length →
                  ¬ openTag.isPrefixOf
                    ((b.take (b.length - i) ++ (b.drop (b.length - i) ++ e)).drop j) = true := by
                rw [hpd, hplen]
                intro j hj hocc
                by_cases hj7 : j + openTag.length ≤ b.length
                · exact goIndex_none hgi j (occ_down hocc hj7)
                · have hspan := occ_span_sufM hocc (by omega) (by omega)
                  have := sufM_unique noBorder_open (by omega) (by omega)
                    ⟨hib1, hib2, hib3⟩ hspan
                  omega
              have hsuf : ∀ s, 1 ≤ s →
                  sufM openTag (b.take (b.length - i) ++ (b.drop (b.length - i) ++ e)) s →
                  s ≤ (b.drop (b.length - i) ++ e).length := by
                rw [hpd, List.length_append, hhlen]
                intro s hs hm
                by_contra hgt
                have hsp := sufM_span hm (by omega)
                have := sufM_unique noBorder_open (by omega) (by omega)
                  ⟨hib1, hib2, hib3⟩ hsp
                omega
              have hsh := shift_content _ _ hocc hsuf
              rw [hpd] at hsh
              rw [runC_heldSome hgi hh]
              dsimp only [extendS]
              exact ⟨hsh.1.symm,
                by rw [hsh.2.1, outC_emitIf_false],
                by rw [hsh.2.2, outR_emitIf_false, List.nil_append]⟩
          | none =>
              have hol : openTag.length = 7 := by decide
              have hnone := (@heldLen_none_iff openTag b 1).mp hh
              have hocc : ∀ j, j < b.length →
                  ¬ openTag.isPrefixOf ((b ++ e).drop j) = true := by
                intro j hj hocc
                by_cases hj7 : j + openTag.length ≤ b.length
                · exact goIndex_none hgi j (occ_down hocc hj7)
                · have hspan := occ_span_sufM hocc (by omega) (by omega)
                  exact hnone (b.length - j) (by omega) hspan
              have hsuf : ∀ s, 1 ≤ s → sufM openTag (b ++ e) s → s ≤ e.length := by
                intro s hs hm
                by_contra hgt
                exact hnone (s - e.length) (by omega) (sufM_span hm (by omega))
              have hsh := shift_content _ _ hocc hsuf
              rw [runC_heldNone hgi hh]
              dsimp only [extendS]
              rw [List.nil_append]
              exact ⟨hsh.1.symm,
                by rw [hsh.2.1, outC_emitIf_false],
                by rw [hsh.2.2, outR_emitIf_false, List.nil_append]⟩

/-- A state is settled when running the loop on it emits nothing and
leaves it unchanged (up to the emitted strings). -/
def WQ (c : Core) : Prop :=
  (run c).2 = c ∧ outC (run c).1 = [] ∧ outR (run c).1 = []

theorem extendS_nil (s : Core) : extendS s [] = s := by
  cases s
  simp [extendS]

theorem WQ_post (flag tn : Bool) (b : List Char) : WQ (run ⟨flag, tn, b⟩).2 := by
  have h := run_append_key (b.length + 1) flag tn b []
    (by split <;> omega)
  rw [extendS_nil, List.append_nil] at h
  exact ⟨h.1, List.self_eq_append_right.mp h.2.1, List.self_eq_append_right.mp h.2.2⟩

theorem heldLen_nil_none (tag : List Char) : heldLen tag [] 1 = none :=
  (heldLen_none_iff 1).mpr (fun j hj hm => absurd hm.2.1 (by simp only [List.length_nil]; omega))

theorem WQ_initCore : WQ initCore := by
  have h : run ⟨false, false, []⟩ = (emitIf [] false, ⟨false, false, []⟩) :=
    runC_heldNone (by decide) (heldLen_nil_none _)
  unfold WQ initCore
  rw [h]
  exact ⟨rfl, rfl, rfl⟩

theorem process_append (c : Core) (x y : List Char) :
    (process c (x ++ y)).2 = (process (process c x).2 y).2 ∧
    outC (process c (x ++ y)).1 =
      outC (process c x).1 ++ outC (process (process c x).2 y).1 ∧
    outR (process c (x ++ y)).1 =
      outR (process c x).1 ++ outR (process (process c x).2 y).1 := by
  unfold process
  rw [← List.append_assoc]
  have h := run_append_key ((c.buffer ++ x).length + 1) c.insideThink c.trimNext
    (c.buffer ++ x) y (by split <;> omega)
  dsimp only [extendS] at h
  exact ⟨h.1.symm, h.2.1, h.2.2⟩

theorem procAll_join : ∀ (chs : List (List Char)) (c : Core), WQ c →
    (procAll c chs).2 = (process c chs.join).2 ∧
    outC (procAll c chs).1 = outC (process c chs.join).1 ∧
    outR (procAll c chs).1 = outR (process c chs.join).1 := by
  intro chs
  induction chs with
  | nil =>
      intro c hwq
      unfold procAll process
      rw [show ([] : List (List Char)).join = [] from rfl, List.append_nil]
      exact ⟨hwq.1.symm, hwq.2.1.symm, hwq.2.2.symm⟩
  | cons ch rest ihr =>
      intro c hwq
      have hwq2 : WQ (process c ch).2 := by
        unfold process
        exact WQ_post _ _ _
      have hstep := process_append c ch rest.join
      have hr := ihr (process c ch).2 hwq2
      have hjoin : (ch :: rest).join = ch ++ rest.join := rfl
      unfold procAll
      dsimp only
      rw [hjoin]
      refine ⟨hr.1.trans hstep.1.symm, ?_, ?_⟩
      · rw [outC_append, hr.2.1, hstep.2.1]
      · rw [outR_append, hr.2.2, hstep.2.2]

/-- Chunk-split invariance at the final-output level: processing any chunk
list and flushing yields the same concatenated content and the same
concatenated reasoning as processing the joined stream in one call. -/
theorem split_invariance (chs : List (List Char)) :
    outC ((procAll initCore chs).1 ++ flush (procAll initCore chs).2) =
      outC ((process initCore chs.join).1 ++ flush (process initCore chs.join).2) ∧
    outR ((procAll initCore chs).1 ++ flush (procAll initCore chs).2) =
      outR ((process initCore chs.join).1 ++ flush (process initCore chs.join).2) := by
  have h := procAll_join chs initCore WQ_initCore
  rw [outC_append, outC_append, outR_append, outR_append, h.1, h.2.1, h.2.2]
  exact ⟨rfl, rfl⟩

theorem c1_held_open : heldLen openTag ("<t".toList) 1 = some 2 := by
  refine heldLen_eq_some_of (by omega) (by decide) ?_
  intro j h1 h2
  have hj : j = 1 := by omega
  subst hj
  decide

theorem c1_run_lt : run ⟨false, false, "<t".toList⟩ = ([], ⟨false, false, "<t".toList⟩) := by
  rw [runC_heldSome (by decide) c1_held_open]
  rfl

/-- **C1 counterexample.**  The original claim states that no strict proper
prefix of `"<think>"` or `"</think>"` is ever emitted as visible content.
Streaming the single chunk `"<t"` and then calling `Flush` emits exactly
`"<t"` — a nonempty strict proper prefix of `"<think>"` — as visible
content, because `Flush` flushes the withheld partial tag with the
`insideThink = false` flag. -/
theorem c1_flush_leaks_partial_open_tag :
    outC ((procAll initCore ["<t".toList]).1 ++ flush (procAll initCore ["<t".toList]).2)
      = "<t".toList ∧
    ("<t".toList).isPrefixOf openTag = true ∧
    "<t".toList ≠ openTag ∧
    "<t".toList ≠ [] := by
  have h1 : procAll initCore ["<t".toList]
      = ((run ⟨false, false, "<t".toList⟩).1 ++ [], (run ⟨false, false, "<t".toList⟩).2) := rfl
  rw [h1, c1_run_lt]
  exact ⟨rfl, by decide, by decide, by decide⟩

/-- **C1 (amended).**  (i) Chunk-split invariance: processing any chunk list
through `thinkTagFilter.Process` and then `Flush` yields the same final
concatenated visible content and the same final concatenated reasoning as
processing the whole joined stream in a single `Process` call; (ii) on
finding a full `"</think>"` the filter emits what precedes it as reasoning
and continues in content mode with a pending one-time whitespace trim
(`trimNext = true`); (iii) a pending trim removes exactly the maximal
leading run of space/tab/newline/carriage-return characters once before
content scanning resumes.  (The original claim's further clause that no
strict proper prefix of a tag is ever emitted as visible content is false:
see the counterexample.) -/
theorem thinkTagFilter_split_invariance :
    (∀ chs : List (List Char),
      outC ((procAll initCore chs).1 ++ flush (procAll initCore chs).2) =
        outC ((process initCore chs.join).1 ++ flush (process initCore chs.join).2) ∧
      outR ((procAll initCore chs).1 ++ flush (procAll initCore chs).2) =
        outR ((process initCore chs.join).1 ++ flush (process initCore chs.join).2)) ∧
    (∀ (tn : Bool) (b : List Char) (idx : Nat), goIndex closeTag b = some idx →
      run ⟨true, tn, b⟩ =
        (emitIf (b.take idx) true ++ (run ⟨false, true, b.drop (idx + closeTag.length)⟩).1,
         (run ⟨false, true, b.drop (idx + closeTag.length)⟩).2)) ∧
    (∀ x : List Char, run ⟨false, true, x⟩ =
      if goTrimLeftWS x = [] then ([], ⟨false, true, []⟩)
      else run ⟨false, false, goTrimLeftWS x⟩) := by
  refine ⟨split_invariance, fun tn b idx h => runI_found h, fun x => ?_⟩
  by_cases h : goTrimLeftWS x = []
  · rw [if_pos h, runC_trimExit h]
  · rw [if_neg h, runC_trimStep h]

/-- Witness for C1: the split-invariance instance at the chunk list
`["ab", "cd"]`, and the close-tag transition instance on the buffer
`"a</think> b"` with its `goIndex` hypothesis discharged concretely. -/
theorem thinkTagFilter_split_invariance_witness :
    (outC ((procAll initCore ["ab".toList, "cd".toList]).1 ++
        flush (procAll initCore ["ab".toList, "cd".toList]).2) =
      outC ((process initCore (["ab".toList, "cd".toList].join)).1 ++
        flush (process initCore (["ab".toList, "cd".toList].join)).2)) ∧
    goIndex closeTag ("a</think> b".toList) = some 1 ∧
    run ⟨true, false, "a</think> b".toList⟩ =
      (emitIf (("a</think> b".toList).take 1) true ++
        (run ⟨false, true, ("a</think> b".toList).drop (1 + closeTag.length)⟩).1,
       (run ⟨false, true, ("a</think> b".toList).drop (1 + closeTag.length)⟩).2) :=
  ⟨(thinkTagFilter_split_invariance.1 ["ab".toList, "cd".toList]).1,
   by decide,
   thinkTagFilter_split_invariance.2.1 false ("a</think> b".toList) 1 (by decide)⟩

end Filter
end Octrafic
